import Mathlib

set_option maxHeartbeats 1000000

/-!
Verification of connectivity-editing components of the LibrePCB editor:
the net-segment splitter, the transactional undo-command group engine,
the board clipboard builder, the paste/remove orchestrators, and the
`NetPoint` geometry primitive.
-/

namespace LibrePCB

/-! ## Geometry primitives -/

/-- A 2D position (`librepcb::Point`), coordinates in nanometers. -/
structure Point where
  x : Int
  y : Int
deriving DecidableEq, Repr

/-! ## NetPoint (src/libs/librepcb/common/geometry/netpoint.cpp) -/

/-- Events emitted through the `onEdited` signal of `NetPoint`. -/
inductive NetPointEvent
  | uuidChanged
  | positionChanged
deriving DecidableEq, Repr

/-- The `NetPoint` value object: a uuid and a position. -/
structure NetPoint where
  uuid : Nat
  position : Point
deriving DecidableEq, Repr

/-- `NetPoint::setPosition`: returns the updated object, the `bool` return
value of the C++ member function, and the list of events emitted through
`onEdited` during the call. -/
def NetPoint.setPosition (np : NetPoint) (position : Point) :
    NetPoint × Bool × List NetPointEvent :=
  if position = np.position then (np, false, [])
  else ({ np with position := position }, true, [NetPointEvent.positionChanged])

/-! ## Net-segment splitter model (C2, C4, C5)

Modelled from the spec: only the class declaration of
`SchematicNetSegmentSplitter` is among the sampled sources; the body of
`split()` / `insertMissingAnchors()` is missing, so the algorithm is
taken from spec section 4.1. -/

/-- Kinds of netline anchors: bare wire point, via, or component pad. -/
inductive AnchorKind
  | junction
  | via
  | pad
deriving DecidableEq, Repr

/-- Anchor identity: `Sum.inl` ids are pre-existing objects, `Sum.inr` ids
are freshly generated ids for anchors synthesized by the splitter (the model
of `Uuid::createRandom`, which never collides with an existing id). -/
abbrev AnchorId := Nat ⊕ Nat

/-- An anchor (terminal point) of the connectivity graph. -/
structure Anchor where
  aid : AnchorId
  kind : AnchorKind
  pos : Point
deriving DecidableEq, Repr

/-- True when the anchor was synthesized by the splitter. -/
def Anchor.isSynthesized (a : Anchor) : Bool :=
  match a.aid with
  | Sum.inl _ => false
  | Sum.inr _ => true

/-- An edge (trace / netline) between two anchors.  `startPos`/`endPos`
record the geometric positions of the endpoints, used when a missing
endpoint anchor must be synthesized. -/
structure Edge where
  eid : Nat
  startId : AnchorId
  endId : AnchorId
  startPos : Point
  endPos : Point
deriving DecidableEq, Repr

/-- Whether an anchor with the given id is present in the list. -/
def hasAnchorId (anchors : List Anchor) (x : AnchorId) : Bool :=
  anchors.any fun a => decide (a.aid = x)

/-- A junction synthesized by the splitter at a given position. -/
def synthJunction (fresh : Nat) (p : Point) : Anchor :=
  ⟨Sum.inr fresh, AnchorKind.junction, p⟩

/-- Modelled from the spec: section 4.1 step 2 for one edge endpoint.  If the
endpoint is present in the input anchors it is kept; otherwise a new junction
anchor is synthesized at the endpoint's former position and substituted. -/
def insertMissingAnchor (anchors : List Anchor) (fresh : Nat) (x : AnchorId)
    (p : Point) : AnchorId × List Anchor :=
  if hasAnchorId anchors x then (x, [])
  else (Sum.inr fresh, [synthJunction fresh p])

/-- Modelled from the spec: walks all edges (the numeric argument is the index
of the first edge, used to generate fresh ids), fixing both endpoints of each
and collecting the synthesized anchors. -/
def insertMissingAnchorsGo (anchors : List Anchor) :
    Nat → List Edge → List Anchor × List Edge
  | _, [] => ([], [])
  | i, e :: rest =>
    let s := insertMissingAnchor anchors (2 * i) e.startId e.startPos
    let t := insertMissingAnchor anchors (2 * i + 1) e.endId e.endPos
    let r := insertMissingAnchorsGo anchors (i + 1) rest
    (s.2 ++ t.2 ++ r.1, { e with startId := s.1, endId := t.1 } :: r.2)

/-- Modelled from the spec: `insertMissingAnchors` (section 4.1 step 2):
returns the augmented anchor set and the edges with substituted endpoints. -/
def insertMissingAnchors (anchors : List Anchor) (edges : List Edge) :
    List Anchor × List Edge :=
  (anchors ++ (insertMissingAnchorsGo anchors 0 edges).1,
   (insertMissingAnchorsGo anchors 0 edges).2)

/-- The ids of the anchors of one component. -/
def compIds (c : List Anchor) : List AnchorId :=
  c.map fun a => a.aid

/-- Whether an edge has an endpoint among the given anchors. -/
def touchesEdge (e : Edge) (c : List Anchor) : Bool :=
  c.any fun a => decide (a.aid = e.startId ∨ a.aid = e.endId)

/-- Modelled from the spec: one step of the connected-component computation
(section 4.1 step 3): all current components touched by the edge are merged
into one. -/
def mergeStep (comps : List (List Anchor)) (e : Edge) : List (List Anchor) :=
  let t := comps.filter (touchesEdge e)
  if t.isEmpty then comps
  else t.flatten :: comps.filter fun c => ! touchesEdge e c

/-- Modelled from the spec: connected components of the anchor/edge graph
(section 4.1 step 3), starting from singleton components. -/
def connectedComponents (anchors : List Anchor) (edges : List Edge) :
    List (List Anchor) :=
  edges.foldl mergeStep (anchors.map fun a => [a])

/-- One output segment of the splitter. -/
structure Segment where
  anchors : List Anchor
  edges : List Edge
deriving DecidableEq, Repr

/-- Whether the start endpoint of the edge lies in the component. -/
def startsInComp (e : Edge) (c : List Anchor) : Bool :=
  c.any fun a => decide (a.aid = e.startId)

/-- The edges assigned to a component: every edge whose start endpoint lies in
the component (both endpoints always end up in the same component). -/
def segmentEdges (edges : List Edge) (c : List Anchor) : List Edge :=
  edges.filter fun e => startsInComp e c

/-- Modelled from the spec: section 4.1 step 4 — a candidate segment is kept
unless it consists solely of zero-degree junctions (no via/pad, no edge). -/
def segKeep (s : Segment) : Bool :=
  (s.anchors.any fun a => decide (a.kind ≠ AnchorKind.junction)) ||
    ! s.edges.isEmpty

/-- Modelled from the spec: the splitter's `split()` (section 4.1):
synthesize missing endpoint anchors, compute connected components, assign
edges, and drop components consisting solely of zero-degree junctions. -/
def split (anchors : List Anchor) (edges : List Edge) : List Segment :=
  let ae := insertMissingAnchors anchors edges
  ((connectedComponents ae.1 ae.2).map fun c =>
      Segment.mk c (segmentEdges ae.2 c)).filter segKeep

/-- Abbreviation: the augmented anchor set used inside `split`. -/
def splitAnchors (anchors : List Anchor) (edges : List Edge) : List Anchor :=
  (insertMissingAnchors anchors edges).1

/-- Abbreviation: the endpoint-fixed edges used inside `split`. -/
def splitEdges (anchors : List Anchor) (edges : List Edge) : List Edge :=
  (insertMissingAnchors anchors edges).2

/-- Abbreviation: the connected components computed inside `split`. -/
def splitComps (anchors : List Anchor) (edges : List Edge) :
    List (List Anchor) :=
  connectedComponents (splitAnchors anchors edges) (splitEdges anchors edges)

/-- Whether an edge is incident to the id `x`. -/
def incidentB (e : Edge) (x : AnchorId) : Bool :=
  decide (x = e.startId ∨ x = e.endId)

/-- An input anchor survives the split exactly when it is a via or pad, or
has at least one incident input edge. -/
def keepAnchor (edges : List Edge) (a : Anchor) : Bool :=
  decide (a.kind ≠ AnchorKind.junction) || edges.any fun e => incidentB e a.aid

/-- Relation between an input edge and its endpoint-fixed counterpart:
same identity, kept endpoints where present, synthesized junction endpoints
(drawn from `syn`) where missing. -/
def FixRel (anchors syn : List Anchor) (e e2 : Edge) : Prop :=
  e2.eid = e.eid ∧
  (hasAnchorId anchors e.startId = true → e2.startId = e.startId) ∧
  (hasAnchorId anchors e.startId = false →
    ∃ a ∈ syn, a.aid = e2.startId ∧ a.kind = AnchorKind.junction ∧
      a.pos = e.startPos ∧ a.isSynthesized = true) ∧
  (hasAnchorId anchors e.endId = true → e2.endId = e.endId) ∧
  (hasAnchorId anchors e.endId = false →
    ∃ a ∈ syn, a.aid = e2.endId ∧ a.kind = AnchorKind.junction ∧
      a.pos = e.endPos ∧ a.isSynthesized = true)

/-- Some component of the list contains both endpoints of the edge. -/
def edgeInComp (comps : List (List Anchor)) (e : Edge) : Prop :=
  ∃ c ∈ comps, e.startId ∈ compIds c ∧ e.endId ∈ compIds c

/-- Every anchor of every component is either alone in its component or
incident to some edge of the pool `E`. -/
def anchorsOk (E : List Edge) (comps : List (List Anchor)) : Prop :=
  ∀ c ∈ comps, ∀ a ∈ c, c = [a] ∨ ∃ e ∈ E, a.aid = e.startId ∨ a.aid = e.endId

/-! ## Board clipboard builder (C9, from boardclipboarddatabuilder.cpp) -/

/-- A device instance on the board, with the fields that
`BoardClipboardDataBuilder::generate` reads. -/
structure BIDevice where
  componentUuid : Nat
  libDeviceUuid : Nat
  libFootprintUuid : Nat
  position : Point
  rotation : Int
  mirrored : Bool
  strokeTexts : List Nat
deriving DecidableEq, Repr

/-- The clipboard entry created for one device instance. -/
structure ClipboardDevice where
  componentUuid : Nat
  libDeviceUuid : Nat
  libFootprintUuid : Nat
  position : Point
  rotation : Int
  mirrored : Bool
  strokeTexts : List Nat
deriving DecidableEq, Repr

/-- The clipboard device built from a board device instance. -/
def clipDeviceOfBI (d : BIDevice) : ClipboardDevice :=
  ⟨d.componentUuid, d.libDeviceUuid, d.libFootprintUuid, d.position,
   d.rotation, d.mirrored, d.strokeTexts⟩

/-- A plane, with the fields copied by the builder. -/
structure Plane where
  uuid : Nat
  layerName : Nat
  netSignalName : Nat
  outline : List Point
  minWidth : Nat
  minClearance : Nat
  keepOrphans : Bool
  priority : Nat
  connectStyle : Nat
deriving DecidableEq, Repr

/-- The result of the board selection query consumed by the builder
(vias and netlines are queried but, with the net-segment export disabled,
never exported). -/
structure BoardSelectionQuery where
  deviceInstances : List BIDevice
  vias : List Nat
  netlines : List Nat
  planes : List Plane
  polygons : List Nat
  strokeTexts : List Nat
  holes : List Nat
deriving DecidableEq, Repr

/-- The clipboard data assembled by the builder. -/
structure BoardClipboardData where
  netSegments : List Nat
  devices : List ClipboardDevice
  planes : List Plane
  polygons : List Nat
  strokeTexts : List Nat
  holes : List Nat
deriving DecidableEq, Repr

/-- `BoardClipboardDataBuilder::generate`: exports devices, planes, polygons,
stroke texts and holes of the selection.  The net-segment export block
(including the splitter invocation) is commented out in the source, so the
net segment list of the produced clipboard data stays empty. -/
def BoardClipboardDataBuilder.generate (query : BoardSelectionQuery) :
    BoardClipboardData where
  netSegments := []
  devices := query.deviceInstances.map clipDeviceOfBI
  planes := query.planes
  polygons := query.polygons
  strokeTexts := query.strokeTexts
  holes := query.holes

/-! ## Paste of one trace (C6, from cmdpasteboarditems.cpp) -/

/-- A netline as added by `CmdBoardNetSegmentAddElements::addNetLine`. -/
structure AddedNetLine where
  startAnchor : Nat
  endAnchor : Nat
  layer : Nat
  width : Nat
deriving DecidableEq, Repr

/-- The fault thrown by `throw LogicError(__FILE__, __LINE__)`. -/
inductive LogicFault
  | logicError
deriving DecidableEq, Repr

/-- The construction of one pasted trace in `CmdPasteBoardItems::performExecute`:
given the resolved start anchor, end anchor and layer (each `none` when
resolution found no live object), it throws a logic fault unless all three
resolved, and only then adds the netline. -/
def addPastedNetLine (start endA layer : Option Nat) (width : Nat) :
    Except LogicFault AddedNetLine :=
  match start, endA, layer with
  | some s, some e, some l => Except.ok ⟨s, e, l, width⟩
  | _, _, _ => Except.error LogicFault.logicError

/-! ## Net signal lookup/creation during paste (C7, from cmdpasteboarditems.cpp) -/

/-- The circuit state visible to `CmdPasteBoardItems::getOrCreateNetSignal`:
existing net signal names, existing net class names, and a counter used to
auto-generate names for new net signals. -/
structure Circuit where
  netSignals : List String
  netClasses : List String
  nextNetSignalId : Nat
deriving DecidableEq, Repr

/-- Auto-generated name of a new net signal. -/
def autoNetSignalName (n : Nat) : String :=
  "N#" ++ Nat.repr n

/-- Modelled from the spec: effect of the child command `CmdNetClassAdd`
(its implementation is not among the sampled sources) — adds a net class
with the given name. -/
def cmdNetClassAdd (c : Circuit) (name : String) : Circuit :=
  { c with netClasses := c.netClasses ++ [name] }

/-- Modelled from the spec: effect of the child command `CmdNetSignalAdd`
(its implementation is not among the sampled sources) — adds a new,
auto-named net signal and returns it. -/
def cmdNetSignalAdd (c : Circuit) : Circuit × String :=
  (⟨c.netSignals ++ [autoNetSignalName c.nextNetSignalId], c.netClasses,
    c.nextNetSignalId + 1⟩,
   autoNetSignalName c.nextNetSignalId)

/-- `CmdPasteBoardItems::getOrCreateNetSignal`: returns the existing net
signal with the requested name if there is one; otherwise first gets or
creates the net class named "default", then creates a new net signal in it.
Returns the updated circuit and the name of the returned net signal. -/
def getOrCreateNetSignal (c : Circuit) (name : String) : Circuit × String :=
  if name ∈ c.netSignals then (c, name)
  else
    let c1 := if "default" ∈ c.netClasses then c else cmdNetClassAdd c "default"
    cmdNetSignalAdd c1

/-! ## Remove-board-items decision (C3, from cmdremoveboarditems.cpp) -/

/-- The vias and netlines of one net segment involved in a removal: used both
for the segment's full item sets and for the selected items
(`CmdRemoveBoardItems::NetSegmentItems`). -/
structure NetSegmentItems where
  vias : Finset Nat
  netlines : Finset Nat
deriving DecidableEq

/-- What `CmdRemoveBoardItems::performExecute` does with one affected net
segment. -/
inductive RemoveAction
  | removeWholeSegment
  | splitUpSegment
deriving DecidableEq, Repr

/-- The decision taken in `CmdRemoveBoardItems::performExecute` for one
affected net segment: if the selected vias are all the segment's vias and the
selected netlines are all the segment's netlines, the whole net segment is
removed with a single `CmdBoardNetSegmentRemove`; otherwise the segment is
split up via `splitUpNetSegment` (which invokes the splitter). -/
def removeActionFor (seg sel : NetSegmentItems) : RemoveAction :=
  if sel.vias = seg.vias ∧ sel.netlines = seg.netlines then
    RemoveAction.removeWholeSegment
  else RemoveAction.splitUpSegment

/-- The items of a net segment as one set (vias tagged left, netlines tagged
right). -/
def segmentItems (its : NetSegmentItems) : Finset (Nat ⊕ Nat) :=
  its.vias.image Sum.inl ∪ its.netlines.image Sum.inr

/-! ## Undo command group engine (C1, C8)

Modelled from the spec: the `UndoCommand`/`UndoCommandGroup` base classes and
the scope guard are not among the sampled sources (only their callers
`CmdRemoveBoardItems::performExecute` and `CmdPasteBoardItems::performExecute`
are), so the engine is taken from spec section 4.3. -/

/-- Actions observable on a child command. -/
inductive UndoAct
  | exec
  | undo
deriving DecidableEq, Repr

/-- Modelled from the spec: a child command over an abstract model state:
an id, a fallible execute, and an undo. -/
structure UndoCommand (σ : Type) where
  cid : Nat
  execute : σ → Option σ
  undo : σ → σ

/-- The log entry for executing a command. -/
def execEntry {σ : Type} (c : UndoCommand σ) : Nat × UndoAct :=
  (c.cid, UndoAct.exec)

/-- The log entry for undoing a command. -/
def undoEntry {σ : Type} (c : UndoCommand σ) : Nat × UndoAct :=
  (c.cid, UndoAct.undo)

/-- Modelled from the spec: the rollback guard's `performUndo()` on the
children executed so far, in reverse order of execution (the argument list is
in reverse execution order, most recent first).  Returns the resulting state
and the chronological log of undo events. -/
def performUndoChildren {σ : Type} :
    List (UndoCommand σ) → σ → σ × List (Nat × UndoAct)
  | [], s => (s, [])
  | c :: rest, s =>
    let r := performUndoChildren rest (c.undo s)
    (r.1, undoEntry c :: r.2)

/-- Observable outcome of `performExecute` of a command group: whether it
completed, the `bool` it returned (meaningful on success), the final model
state, the chronological log of child execute/undo events, and whether the
rollback scope guard was dismissed. -/
structure GroupResult (σ : Type) where
  success : Bool
  returnedEffect : Bool
  state : σ
  log : List (Nat × UndoAct)
  guardDismissed : Bool

/-- Modelled from the spec: the working loop of a command group's
`performExecute` (section 4.3): remaining children, current state, children
executed so far (reverse order), accumulated log (reverse chronological). -/
def performExecuteGo {σ : Type} :
    List (UndoCommand σ) → σ → List (UndoCommand σ) → List (Nat × UndoAct) →
    GroupResult σ
  | [], s, done, lg => ⟨true, decide (0 < done.length), s, lg.reverse, true⟩
  | c :: cs, s, done, lg =>
    match c.execute s with
    | some s2 => performExecuteGo cs s2 (c :: done) (execEntry c :: lg)
    | none =>
      let r := performUndoChildren done s
      ⟨false, false, r.1, lg.reverse ++ r.2, false⟩

/-- Modelled from the spec: `UndoCommandGroup::performExecute` — executes the
children in order; on a child fault the rollback guard undoes the executed
children in reverse order and the fault propagates (success = false); on
completion the guard is dismissed and the returned effect flag is
`childCount > 0`. -/
def performExecute {σ : Type} (cs : List (UndoCommand σ)) (s : σ) :
    GroupResult σ :=
  performExecuteGo cs s [] []

/-- Executes a list of commands in order with no rollback; `none` when one
fails.  Used to phrase hypotheses about which children succeed. -/
def execAll {σ : Type} : List (UndoCommand σ) → σ → Option σ
  | [], s => some s
  | c :: rest, s =>
    match c.execute s with
    | some s2 => execAll rest s2
    | none => none

/-- The command's undo reverts exactly what its execute did (the Command
contract of spec section 3: a command owns a before/after state sufficient
to undo). -/
def UndoInverts {σ : Type} (c : UndoCommand σ) : Prop :=
  ∀ s t, c.execute s = some t → c.undo t = s

/-! # Theorems -/

/-! ## Splitter: properties of the missing-anchor insertion -/

/-- Membership formulation of `hasAnchorId`. -/
theorem hasAnchorId_iff (l : List Anchor) (x : AnchorId) :
    hasAnchorId l x = true ↔ ∃ a ∈ l, a.aid = x := by
  simp [hasAnchorId, List.any_eq_true]

/-- An anchor is not synthesized exactly when its id is a pre-existing id. -/
theorem isSynthesized_false_iff (a : Anchor) :
    a.isSynthesized = false ↔ ∃ n, a.aid = Sum.inl n := by
  cases h : a.aid <;> simp [Anchor.isSynthesized, h]

/-- Everything `insertMissingAnchor` synthesizes is the junction at the
requested position. -/
theorem insertMissingAnchor_mem (anchors : List Anchor) (fresh : Nat)
    (x : AnchorId) (p : Point) (a : Anchor)
    (ha : a ∈ (insertMissingAnchor anchors fresh x p).2) :
    a = synthJunction fresh p := by
  unfold insertMissingAnchor at ha
  cases h : hasAnchorId anchors x <;> simp [h] at ha
  exact ha

/-- The substituted id of `insertMissingAnchor`: kept when present,
fresh otherwise. -/
theorem insertMissingAnchor_fst (anchors : List Anchor) (fresh : Nat)
    (x : AnchorId) (p : Point) :
    (hasAnchorId anchors x = true →
      (insertMissingAnchor anchors fresh x p).1 = x) ∧
    (hasAnchorId anchors x = false →
      (insertMissingAnchor anchors fresh x p).1 = Sum.inr fresh ∧
      (insertMissingAnchor anchors fresh x p).2 = [synthJunction fresh p]) := by
  unfold insertMissingAnchor
  cases h : hasAnchorId anchors x <;> simp [h]

/-- Endpoint fixing preserves the edge identities, in order. -/
theorem insertGo_map_eid (anchors : List Anchor) :
    ∀ (i : Nat) (es : List Edge),
      (insertMissingAnchorsGo anchors i es).2.map Edge.eid =
        es.map Edge.eid := by
  intro i es
  induction es generalizing i with
  | nil => rfl
  | cons e rest ih => simp [insertMissingAnchorsGo, ih]

/-- Every synthesized anchor is a junction with a fresh id at least `2 * i`. -/
theorem insertGo_syn_facts (anchors : List Anchor) :
    ∀ (i : Nat) (es : List Edge) (a : Anchor),
      a ∈ (insertMissingAnchorsGo anchors i es).1 →
      a.kind = AnchorKind.junction ∧ a.isSynthesized = true ∧
      ∃ k, a.aid = Sum.inr k ∧ 2 * i ≤ k := by
  intro i es
  induction es generalizing i with
  | nil => intro a ha; simp [insertMissingAnchorsGo] at ha
  | cons e rest ih =>
    intro a ha
    simp only [insertMissingAnchorsGo, List.mem_append] at ha
    rcases ha with (hs | ht) | hr
    · have h := insertMissingAnchor_mem _ _ _ _ _ hs
      subst h
      exact ⟨rfl, rfl, 2 * i, rfl, Nat.le_refl _⟩
    · have h := insertMissingAnchor_mem _ _ _ _ _ ht
      subst h
      exact ⟨rfl, rfl, 2 * i + 1, rfl, Nat.le_succ _⟩
    · obtain ⟨h1, h2, k, hk, hb⟩ := ih (i + 1) a hr
      exact ⟨h1, h2, k, hk, by omega⟩

/-- The synthesized anchors have pairwise distinct ids. -/
theorem insertGo_syn_nodup (anchors : List Anchor) :
    ∀ (i : Nat) (es : List Edge),
      ((insertMissingAnchorsGo anchors i es).1.map Anchor.aid).Nodup := by
  intro i es
  induction es generalizing i with
  | nil => simp [insertMissingAnchorsGo]
  | cons e rest ih =>
    have hbound : ∀ a ∈ (insertMissingAnchorsGo anchors (i + 1) rest).1,
        ∃ k, a.aid = Sum.inr k ∧ 2 * (i + 1) ≤ k := by
      intro a ha
      exact (insertGo_syn_facts anchors (i + 1) rest a ha).2.2
    have hnotmem : ∀ m, m < 2 * (i + 1) →
        (Sum.inr m : AnchorId) ∉
          (insertMissingAnchorsGo anchors (i + 1) rest).1.map Anchor.aid := by
      intro m hm hmem
      rw [List.mem_map] at hmem
      obtain ⟨a, ha, haid⟩ := hmem
      obtain ⟨k, hk, hkb⟩ := hbound a ha
      rw [hk] at haid
      cases haid
      omega
    cases hs : hasAnchorId anchors e.startId <;>
      cases ht : hasAnchorId anchors e.endId <;>
      simp only [insertMissingAnchorsGo, insertMissingAnchor, hs, ht,
        Bool.false_eq_true, if_false, if_true, List.nil_append,
        List.append_nil, List.map_append, List.map_cons, List.map_nil,
        List.singleton_append, List.cons_append, List.nodup_cons,
        List.mem_cons, List.mem_append] <;>
      refine ?_
    · constructor
      · intro hmem
        rcases hmem with hmem | hmem
        · simp only [synthJunction, Sum.inr.injEq] at hmem
          omega
        · exact hnotmem (2 * i) (by omega) hmem
      · constructor
        · intro hmem
          exact hnotmem (2 * i + 1) (by omega) hmem
        · exact ih (i + 1)
    · constructor
      · intro hmem
        exact hnotmem (2 * i) (by omega) hmem
      · exact ih (i + 1)
    · constructor
      · intro hmem
        exact hnotmem (2 * i + 1) (by omega) hmem
      · exact ih (i + 1)
    · exact ih (i + 1)

/-- Both endpoints of every fixed edge have an anchor among the inputs or the
synthesized anchors. -/
theorem insertGo_endpoints (anchors : List Anchor) :
    ∀ (i : Nat) (es : List Edge) (e2 : Edge),
      e2 ∈ (insertMissingAnchorsGo anchors i es).2 →
      (∃ a, (a ∈ anchors ∨ a ∈ (insertMissingAnchorsGo anchors i es).1) ∧
        a.aid = e2.startId) ∧
      (∃ a, (a ∈ anchors ∨ a ∈ (insertMissingAnchorsGo anchors i es).1) ∧
        a.aid = e2.endId) := by
  intro i es
  induction es generalizing i with
  | nil => intro e2 h; simp [insertMissingAnchorsGo] at h
  | cons e rest ih =>
    intro e2 h
    simp only [insertMissingAnchorsGo, List.mem_cons] at h
    rcases h with h | h
    · subst h
      constructor
      · cases hs : hasAnchorId anchors e.startId
        · obtain ⟨h1, h2⟩ := (insertMissingAnchor_fst anchors (2 * i)
            e.startId e.startPos).2 hs
          refine ⟨synthJunction (2 * i) e.startPos, Or.inr ?_, ?_⟩
          · simp only [insertMissingAnchorsGo, List.mem_append]
            exact Or.inl (Or.inl (by rw [h2]; exact List.mem_singleton.mpr rfl))
          · simp [synthJunction, h1]
        · obtain ⟨a, ha, haid⟩ := (hasAnchorId_iff anchors e.startId).mp hs
          refine ⟨a, Or.inl ha, ?_⟩
          rw [(insertMissingAnchor_fst anchors (2 * i) e.startId
            e.startPos).1 hs]
          exact haid
      · cases ht : hasAnchorId anchors e.endId
        · obtain ⟨h1, h2⟩ := (insertMissingAnchor_fst anchors (2 * i + 1)
            e.endId e.endPos).2 ht
          refine ⟨synthJunction (2 * i + 1) e.endPos, Or.inr ?_, ?_⟩
          · simp only [insertMissingAnchorsGo, List.mem_append]
            exact Or.inl (Or.inr (by rw [h2]; exact List.mem_singleton.mpr rfl))
          · simp [synthJunction, h1]
        · obtain ⟨a, ha, haid⟩ := (hasAnchorId_iff anchors e.endId).mp ht
          refine ⟨a, Or.inl ha, ?_⟩
          rw [(insertMissingAnchor_fst anchors (2 * i + 1) e.endId
            e.endPos).1 ht]
          exact haid
    · obtain ⟨⟨a1, ha1, haid1⟩, ⟨a2, ha2, haid2⟩⟩ := ih (i + 1) e2 h
      constructor
      · refine ⟨a1, ?_, haid1⟩
        rcases ha1 with ha1 | ha1
        · exact Or.inl ha1
        · refine Or.inr ?_
          simp only [insertMissingAnchorsGo, List.mem_append]
          exact Or.inr ha1
      · refine ⟨a2, ?_, haid2⟩
        rcases ha2 with ha2 | ha2
        · exact Or.inl ha2
        · refine Or.inr ?_
          simp only [insertMissingAnchorsGo, List.mem_append]
          exact Or.inr ha2

/-- `FixRel` is monotone in the set of synthesized anchors. -/
theorem FixRel.mono {anchors s1 s2 : List Anchor} {e e2 : Edge}
    (h : FixRel anchors s1 e e2) (hs : ∀ a ∈ s1, a ∈ s2) :
    FixRel anchors s2 e e2 := by
  obtain ⟨h0, h1, h2, h3, h4⟩ := h
  refine ⟨h0, h1, ?_, h3, ?_⟩
  · intro hm
    obtain ⟨a, ha, rest⟩ := h2 hm
    exact ⟨a, hs a ha, rest⟩
  · intro hm
    obtain ⟨a, ha, rest⟩ := h4 hm
    exact ⟨a, hs a ha, rest⟩

/-- Forward correspondence: every input edge has a fixed counterpart related
by `FixRel`. -/
theorem insertGo_fixRel (anchors : List Anchor) :
    ∀ (i : Nat) (es : List Edge) (e : Edge), e ∈ es →
      ∃ e2 ∈ (insertMissingAnchorsGo anchors i es).2,
        FixRel anchors (insertMissingAnchorsGo anchors i es).1 e e2 := by
  intro i es
  induction es generalizing i with
  | nil => intro e h; simp at h
  | cons e0 rest ih =>
    intro e h
    rcases List.mem_cons.mp h with h | h
    · subst h
      refine ⟨{ e with
          startId := (insertMissingAnchor anchors (2 * i) e.startId
            e.startPos).1,
          endId := (insertMissingAnchor anchors (2 * i + 1) e.endId
            e.endPos).1 }, ?_, ?_⟩
      · exact List.mem_cons_self _ _
      · refine ⟨rfl, ?_, ?_, ?_, ?_⟩
        · intro hs
          simp only
          rw [(insertMissingAnchor_fst anchors (2 * i) e.startId
            e.startPos).1 hs]
        · intro hs
          obtain ⟨h1, h2⟩ := (insertMissingAnchor_fst anchors (2 * i)
            e.startId e.startPos).2 hs
          refine ⟨synthJunction (2 * i) e.startPos, ?_, ?_, rfl, rfl, rfl⟩
          · simp only [insertMissingAnchorsGo, List.mem_append]
            exact Or.inl (Or.inl (by rw [h2]; exact List.mem_singleton.mpr rfl))
          · simp [synthJunction, h1]
        · intro ht
          simp only
          rw [(insertMissingAnchor_fst anchors (2 * i + 1) e.endId
            e.endPos).1 ht]
        · intro ht
          obtain ⟨h1, h2⟩ := (insertMissingAnchor_fst anchors (2 * i + 1)
            e.endId e.endPos).2 ht
          refine ⟨synthJunction (2 * i + 1) e.endPos, ?_, ?_, rfl, rfl, rfl⟩
          · simp only [insertMissingAnchorsGo, List.mem_append]
            exact Or.inl (Or.inr (by rw [h2]; exact List.mem_singleton.mpr rfl))
          · simp [synthJunction, h1]
    · obtain ⟨e2, he2, hrel⟩ := ih (i + 1) e h
      refine ⟨e2, ?_, ?_⟩
      · simp only [insertMissingAnchorsGo, List.mem_cons]
        exact Or.inr he2
      · refine hrel.mono ?_
        intro a ha
        simp only [insertMissingAnchorsGo, List.mem_append]
        exact Or.inr ha

/-- Backward correspondence: every fixed edge comes from an input edge with
the same identity, each endpoint either kept or replaced by a fresh id. -/
theorem insertGo_backward (anchors : List Anchor) :
    ∀ (i : Nat) (es : List Edge) (e2 : Edge),
      e2 ∈ (insertMissingAnchorsGo anchors i es).2 →
      ∃ e ∈ es, e2.eid = e.eid ∧
        (e2.startId = e.startId ∨ ∃ k, e2.startId = Sum.inr k) ∧
        (e2.endId = e.endId ∨ ∃ k, e2.endId = Sum.inr k) := by
  intro i es
  induction es generalizing i with
  | nil => intro e2 h; simp [insertMissingAnchorsGo] at h
  | cons e0 rest ih =>
    intro e2 h
    simp only [insertMissingAnchorsGo, List.mem_cons] at h
    rcases h with h | h
    · subst h
      refine ⟨e0, List.mem_cons_self _ _, rfl, ?_, ?_⟩
      · cases hs : hasAnchorId anchors e0.startId
        · exact Or.inr ⟨2 * i, by
            simp only
            rw [((insertMissingAnchor_fst anchors (2 * i) e0.startId
              e0.startPos).2 hs).1]⟩
        · exact Or.inl (by
            simp only
            rw [(insertMissingAnchor_fst anchors (2 * i) e0.startId
              e0.startPos).1 hs])
      · cases ht : hasAnchorId anchors e0.endId
        · exact Or.inr ⟨2 * i + 1, by
            simp only
            rw [((insertMissingAnchor_fst anchors (2 * i + 1) e0.endId
              e0.endPos).2 ht).1]⟩
        · exact Or.inl (by
            simp only
            rw [(insertMissingAnchor_fst anchors (2 * i + 1) e0.endId
              e0.endPos).1 ht])
    · obtain ⟨e, he, hrest⟩ := ih (i + 1) e2 h
      exact ⟨e, List.mem_cons_of_mem _ he, hrest⟩

/-- The augmented anchor list of `insertMissingAnchors` has pairwise distinct
ids when the input does and contains no synthesized-style id. -/
theorem insertMissingAnchors_nodup (anchors : List Anchor) (edges : List Edge)
    (hA : (anchors.map Anchor.aid).Nodup)
    (hOrig : ∀ a ∈ anchors, a.isSynthesized = false) :
    (((insertMissingAnchors anchors edges).1).map Anchor.aid).Nodup := by
  unfold insertMissingAnchors
  rw [List.map_append, List.nodup_append]
  refine ⟨hA, insertGo_syn_nodup anchors 0 edges, ?_⟩
  intro x hx hx2
  rw [List.mem_map] at hx hx2
  obtain ⟨a, ha, haid⟩ := hx
  obtain ⟨b, hb, hbid⟩ := hx2
  obtain ⟨n, hn⟩ := (isSynthesized_false_iff a).mp (hOrig a ha)
  obtain ⟨_, _, k, hk, _⟩ := insertGo_syn_facts anchors 0 edges b hb
  rw [hn] at haid
  rw [hk] at hbid
  rw [← haid] at hbid
  cases hbid

/-! ## Splitter: properties of the component merge -/

/-- Flattening singleton components gives back the anchors. -/
theorem flatten_map_singleton (l : List Anchor) :
    (l.map fun a => [a]).flatten = l := by
  induction l with
  | nil => rfl
  | cons a t ih => simp [ih]

/-- Membership formulation of `startsInComp`. -/
theorem startsInComp_iff (e : Edge) (c : List Anchor) :
    startsInComp e c = true ↔ e.startId ∈ compIds c := by
  rw [startsInComp, List.any_eq_true, compIds]
  constructor
  · rintro ⟨a, ha, haid⟩
    rw [decide_eq_true_eq] at haid
    exact List.mem_map.mpr ⟨a, ha, haid⟩
  · intro h
    obtain ⟨a, ha, haid⟩ := List.mem_map.mp h
    exact ⟨a, ha, by rw [decide_eq_true_eq]; exact haid⟩

/-- Membership formulation of `touchesEdge`. -/
theorem touchesEdge_iff (e : Edge) (c : List Anchor) :
    touchesEdge e c = true ↔
      ∃ a ∈ c, a.aid = e.startId ∨ a.aid = e.endId := by
  simp [touchesEdge, List.any_eq_true]

/-- One merge step permutes the flattened anchors. -/
theorem mergeStep_flatten_perm (comps : List (List Anchor)) (e : Edge) :
    (mergeStep comps e).flatten.Perm comps.flatten := by
  unfold mergeStep
  by_cases hcond : (comps.filter (touchesEdge e)).isEmpty = true
  · rw [if_pos hcond]
  · rw [if_neg hcond]
    have hp := (List.filter_append_perm (touchesEdge e) comps).flatten
    rw [List.flatten_append] at hp
    simpa using hp

/-- The whole fold permutes the flattened anchors. -/
theorem foldl_mergeStep_flatten_perm (es : List Edge) :
    ∀ comps : List (List Anchor),
      (es.foldl mergeStep comps).flatten.Perm comps.flatten := by
  induction es with
  | nil => intro comps; exact List.Perm.refl _
  | cons e rest ih =>
    intro comps
    exact (ih (mergeStep comps e)).trans (mergeStep_flatten_perm comps e)

/-- Each component embeds into some component after a merge step. -/
theorem mergeStep_superset (comps : List (List Anchor)) (e : Edge) :
    ∀ c ∈ comps, ∃ c2 ∈ mergeStep comps e, ∀ a ∈ c, a ∈ c2 := by
  intro c hc
  unfold mergeStep
  by_cases hcond : (comps.filter (touchesEdge e)).isEmpty = true
  · rw [if_pos hcond]
    exact ⟨c, hc, fun a ha => ha⟩
  · rw [if_neg hcond]
    by_cases htc : touchesEdge e c = true
    · refine ⟨(comps.filter (touchesEdge e)).flatten,
        List.mem_cons_self _ _, ?_⟩
      intro a ha
      exact List.mem_flatten_of_mem (List.mem_filter.mpr ⟨hc, htc⟩) ha
    · refine ⟨c, List.mem_cons_of_mem _
        (List.mem_filter.mpr ⟨hc, by simp [htc]⟩), fun a ha => ha⟩

/-- Each component embeds into some component after the whole fold. -/
theorem foldl_mergeStep_superset (es : List Edge) :
    ∀ (comps : List (List Anchor)) (c : List Anchor), c ∈ comps →
      ∃ c2 ∈ es.foldl mergeStep comps, ∀ a ∈ c, a ∈ c2 := by
  induction es with
  | nil => intro comps c hc; exact ⟨c, hc, fun a ha => ha⟩
  | cons e rest ih =>
    intro comps c hc
    obtain ⟨c1, hc1, hsub1⟩ := mergeStep_superset comps e c hc
    obtain ⟨c2, hc2, hsub2⟩ := ih (mergeStep comps e) c1 hc1
    exact ⟨c2, hc2, fun a ha => hsub2 a (hsub1 a ha)⟩

/-- A merge step preserves co-location of an edge's endpoints. -/
theorem mergeStep_edgeInComp (comps : List (List Anchor)) (e e0 : Edge)
    (h : edgeInComp comps e0) : edgeInComp (mergeStep comps e) e0 := by
  obtain ⟨c, hc, h1, h2⟩ := h
  obtain ⟨c2, hc2, hsub⟩ := mergeStep_superset comps e c hc
  refine ⟨c2, hc2, ?_, ?_⟩
  · rw [compIds, List.mem_map] at h1 ⊢
    obtain ⟨a, ha, haid⟩ := h1
    exact ⟨a, hsub a ha, haid⟩
  · rw [compIds, List.mem_map] at h2 ⊢
    obtain ⟨a, ha, haid⟩ := h2
    exact ⟨a, hsub a ha, haid⟩

/-- The whole fold preserves co-location of an edge's endpoints. -/
theorem foldl_mergeStep_edgeInComp (es : List Edge) :
    ∀ (comps : List (List Anchor)) (e0 : Edge), edgeInComp comps e0 →
      edgeInComp (es.foldl mergeStep comps) e0 := by
  induction es with
  | nil => intro comps e0 h; exact h
  | cons e rest ih =>
    intro comps e0 h
    exact ih (mergeStep comps e) e0 (mergeStep_edgeInComp comps e e0 h)

/-- Merging on an edge whose endpoints lie in components co-locates them. -/
theorem mergeStep_establishes (comps : List (List Anchor)) (e : Edge)
    (h1 : ∃ c ∈ comps, e.startId ∈ compIds c)
    (h2 : ∃ c ∈ comps, e.endId ∈ compIds c) :
    edgeInComp (mergeStep comps e) e := by
  obtain ⟨c1, hc1, hm1⟩ := h1
  obtain ⟨c2, hc2, hm2⟩ := h2
  have ht1 : touchesEdge e c1 = true := by
    rw [touchesEdge_iff]
    rw [compIds, List.mem_map] at hm1
    obtain ⟨a, ha, haid⟩ := hm1
    exact ⟨a, ha, Or.inl haid⟩
  have ht2 : touchesEdge e c2 = true := by
    rw [touchesEdge_iff]
    rw [compIds, List.mem_map] at hm2
    obtain ⟨a, ha, haid⟩ := hm2
    exact ⟨a, ha, Or.inr haid⟩
  have hcond : ¬((comps.filter (touchesEdge e)).isEmpty = true) := by
    intro hemp
    rw [List.isEmpty_iff] at hemp
    have hmem : c1 ∈ comps.filter (touchesEdge e) :=
      List.mem_filter.mpr ⟨hc1, ht1⟩
    rw [hemp] at hmem
    cases hmem
  unfold edgeInComp mergeStep
  rw [if_neg hcond]
  refine ⟨(comps.filter (touchesEdge e)).flatten, List.mem_cons_self _ _,
    ?_, ?_⟩
  · rw [compIds, List.mem_map] at hm1 ⊢
    obtain ⟨a, ha, haid⟩ := hm1
    exact ⟨a, List.mem_flatten_of_mem (List.mem_filter.mpr ⟨hc1, ht1⟩) ha, haid⟩
  · rw [compIds, List.mem_map] at hm2 ⊢
    obtain ⟨a, ha, haid⟩ := hm2
    exact ⟨a, List.mem_flatten_of_mem (List.mem_filter.mpr ⟨hc2, ht2⟩) ha, haid⟩

/-- After the fold, every processed edge has both endpoints in one component,
provided every endpoint starts out with an anchor among the components. -/
theorem foldl_edgeInComp_all (es : List Edge) :
    ∀ comps : List (List Anchor),
      (∀ e ∈ es, (∃ a ∈ comps.flatten, a.aid = e.startId) ∧
        (∃ a ∈ comps.flatten, a.aid = e.endId)) →
      ∀ e ∈ es, edgeInComp (es.foldl mergeStep comps) e := by
  induction es with
  | nil => intro comps _ e he; cases he
  | cons e0 rest ih =>
    intro comps h e he
    rcases List.mem_cons.mp he with he | he
    · rw [he]
      obtain ⟨⟨a1, ha1, haid1⟩, ⟨a2, ha2, haid2⟩⟩ :=
        h e0 (List.mem_cons_self _ _)
      have hstart : ∃ c ∈ comps, e0.startId ∈ compIds c := by
        obtain ⟨c, hc, ha⟩ := List.mem_flatten.mp ha1
        exact ⟨c, hc, List.mem_map.mpr ⟨a1, ha, haid1⟩⟩
      have hend : ∃ c ∈ comps, e0.endId ∈ compIds c := by
        obtain ⟨c, hc, ha⟩ := List.mem_flatten.mp ha2
        exact ⟨c, hc, List.mem_map.mpr ⟨a2, ha, haid2⟩⟩
      exact foldl_mergeStep_edgeInComp rest (mergeStep comps e0) e0
        (mergeStep_establishes comps e0 hstart hend)
    · apply ih (mergeStep comps e0) ?_ e he
      intro e1 he1
      have hh := h e1 (List.mem_cons_of_mem _ he1)
      have hperm := mergeStep_flatten_perm comps e0
      constructor
      · obtain ⟨a, ha, haid⟩ := hh.1
        exact ⟨a, hperm.mem_iff.mpr ha, haid⟩
      · obtain ⟨a, ha, haid⟩ := hh.2
        exact ⟨a, hperm.mem_iff.mpr ha, haid⟩

/-- A singleton component of an anchor incident to no processed edge
survives the fold untouched. -/
theorem foldl_untouched_singleton (es : List Edge) :
    ∀ (comps : List (List Anchor)) (a : Anchor),
      (∀ e ∈ es, incidentB e a.aid = false) → [a] ∈ comps →
      [a] ∈ es.foldl mergeStep comps := by
  induction es with
  | nil => intro comps a _ h; exact h
  | cons e rest ih =>
    intro comps a hinc hmem
    apply ih (mergeStep comps e) a
      (fun e1 he1 => hinc e1 (List.mem_cons_of_mem _ he1))
    have htouch : touchesEdge e [a] = false := by
      have h0 := hinc e (List.mem_cons_self _ _)
      simp only [incidentB, decide_eq_false_iff_not] at h0
      simp only [touchesEdge, List.any_cons, List.any_nil, Bool.or_false,
        decide_eq_false_iff_not]
      exact h0
    unfold mergeStep
    by_cases hcond : (comps.filter (touchesEdge e)).isEmpty = true
    · rw [if_pos hcond]; exact hmem
    · rw [if_neg hcond]
      exact List.mem_cons_of_mem _
        (List.mem_filter.mpr ⟨hmem, by simp [htouch]⟩)

/-- A merge step preserves `anchorsOk`. -/
theorem mergeStep_anchorsOk (E : List Edge) (comps : List (List Anchor))
    (e : Edge) (he : e ∈ E) (h : anchorsOk E comps) :
    anchorsOk E (mergeStep comps e) := by
  intro c hc a ha
  unfold mergeStep at hc
  by_cases hcond : (comps.filter (touchesEdge e)).isEmpty = true
  · rw [if_pos hcond] at hc
    exact h c hc a ha
  · rw [if_neg hcond] at hc
    rcases List.mem_cons.mp hc with hc | hc
    · subst hc
      obtain ⟨c0, hc0, hac0⟩ := List.mem_flatten.mp ha
      have hc0f := List.mem_filter.mp hc0
      rcases h c0 hc0f.1 a hac0 with hsing | hinc
      · right
        refine ⟨e, he, ?_⟩
        have ht := hc0f.2
        rw [hsing] at ht
        simpa only [touchesEdge, List.any_cons, List.any_nil, Bool.or_false,
          decide_eq_true_eq] using ht
      · exact Or.inr hinc
    · exact h c (List.mem_filter.mp hc).1 a ha

/-- The fold preserves `anchorsOk`. -/
theorem foldl_anchorsOk (es : List Edge) :
    ∀ (E : List Edge) (comps : List (List Anchor)), (∀ e ∈ es, e ∈ E) →
      anchorsOk E comps → anchorsOk E (es.foldl mergeStep comps) := by
  induction es with
  | nil => intro E comps _ h; exact h
  | cons e rest ih =>
    intro E comps hE h
    exact ih E (mergeStep comps e)
      (fun e1 he1 => hE e1 (List.mem_cons_of_mem _ he1))
      (mergeStep_anchorsOk E comps e (hE e (List.mem_cons_self _ _)) h)

/-- The initial singleton components satisfy `anchorsOk`. -/
theorem anchorsOk_init (E : List Edge) (anchors : List Anchor) :
    anchorsOk E (anchors.map fun a => [a]) := by
  intro c hc a ha
  rw [List.mem_map] at hc
  obtain ⟨b, _, hb⟩ := hc
  subst hb
  rcases List.mem_singleton.mp ha with rfl
  exact Or.inl rfl

/-! ## Splitter: counting and partition helpers -/

/-- Counting occurrences in a flattened list of per-component filters. -/
theorem count_flatten_filter {α γ : Type} [DecidableEq α] (p : γ → α → Bool)
    (pool : List α) :
    ∀ (comps : List γ) (x : α),
      ((comps.map fun c => pool.filter (p c)).flatten).count x =
        (comps.countP fun c => p c x) * pool.count x := by
  intro comps
  induction comps with
  | nil => intro x; simp
  | cons c cs ih =>
    intro x
    simp only [List.map_cons, List.flatten_cons, List.count_append, ih,
      List.countP_cons]
    by_cases hpc : p c x = true
    · rw [List.count_filter (by simpa using hpc)]
      simp [hpc]
      ring
    · have hnot : x ∉ pool.filter (p c) := by
        intro hx
        exact hpc (List.mem_filter.mp hx).2
      rw [List.count_eq_zero_of_not_mem hnot]
      simp [hpc]

/-- A predicate holding for exactly one member of a pairwise-exclusive list
is counted once. -/
theorem countP_eq_one_of_pairwise {γ : Type} (q : γ → Bool) :
    ∀ comps : List γ, (∃ c ∈ comps, q c = true) →
      List.Pairwise (fun c d => ¬(q c = true ∧ q d = true)) comps →
      comps.countP q = 1 := by
  intro comps
  induction comps with
  | nil =>
    intro h _
    obtain ⟨c, hc, _⟩ := h
    cases hc
  | cons c cs ih =>
    intro hex hpw
    rw [List.countP_cons]
    by_cases hc : q c = true
    · have hzero : cs.countP q = 0 := by
        rw [List.countP_eq_zero]
        intro d hd hqd
        exact (List.pairwise_cons.mp hpw).1 d hd ⟨hc, by simpa using hqd⟩
      simp [hzero, hc]
    · have hex2 : ∃ d ∈ cs, q d = true := by
        obtain ⟨d, hd, hqd⟩ := hex
        rcases List.mem_cons.mp hd with rfl | hd2
        · exact absurd hqd hc
        · exact ⟨d, hd2, hqd⟩
      rw [ih hex2 (List.pairwise_cons.mp hpw).2]
      simp [hc]

/-- Two lists without duplicates and with the same members are permutations
of each other. -/
theorem perm_of_nodup_of_mem_iff {α : Type} [DecidableEq α] {l1 l2 : List α}
    (h1 : l1.Nodup) (h2 : l2.Nodup) (h : ∀ x, x ∈ l1 ↔ x ∈ l2) :
    l1.Perm l2 := by
  rw [List.perm_iff_count]
  intro x
  by_cases hx : x ∈ l1
  · rw [List.count_eq_one_of_mem h1 hx,
      List.count_eq_one_of_mem h2 ((h x).mp hx)]
  · rw [List.count_eq_zero_of_not_mem hx,
      List.count_eq_zero_of_not_mem (fun hx2 => hx ((h x).mpr hx2))]

/-- A sublist of the outer list gives a sublist of the flattened lists. -/
theorem flatten_sublist_of_sublist {α : Type} :
    ∀ {L1 L2 : List (List α)}, L1.Sublist L2 → L1.flatten.Sublist L2.flatten := by
  intro L1 L2 h
  induction h with
  | slnil => exact List.Sublist.refl _
  | cons l _ ih => exact ih.trans (List.sublist_append_right l _)
  | cons₂ l _ ih => exact ih.append_left l

/-- Dropping segments that carry no edges does not change the flattened edge
lists. -/
theorem filter_segKeep_edges_flatten :
    ∀ segs : List Segment, (∀ s ∈ segs, segKeep s = false → s.edges = []) →
      ((segs.filter segKeep).map Segment.edges).flatten.Perm
        ((segs.map Segment.edges).flatten) := by
  intro segs
  induction segs with
  | nil => intro _; exact List.Perm.refl _
  | cons s rest ih =>
    intro h
    have hrest := fun s1 hs1 => h s1 (List.mem_cons_of_mem _ hs1)
    by_cases hk : segKeep s = true
    · rw [List.filter_cons, if_pos hk, List.map_cons, List.flatten_cons,
        List.map_cons, List.flatten_cons]
      exact (ih hrest).append_left s.edges
    · have hke : s.edges = [] := h s (List.mem_cons_self _ _) (by
        cases hs : segKeep s
        · rfl
        · exact absurd hs hk)
      rw [List.filter_cons, if_neg hk, List.map_cons, List.flatten_cons, hke,
        List.nil_append]
      exact ih hrest

/-! ## Splitter: assembly lemmas -/

/-- `split` unfolded in terms of its abbreviations. -/
theorem split_eq (anchors : List Anchor) (edges : List Edge) :
    split anchors edges =
      ((splitComps anchors edges).map fun c =>
        Segment.mk c (segmentEdges (splitEdges anchors edges) c)).filter
        segKeep := rfl

/-- The fixed edges keep the input edge identities, in order. -/
theorem splitEdges_map_eid (anchors : List Anchor) (edges : List Edge) :
    (splitEdges anchors edges).map Edge.eid = edges.map Edge.eid :=
  insertGo_map_eid anchors 0 edges

/-- The augmented anchors are the input anchors plus the synthesized ones. -/
theorem splitAnchors_eq (anchors : List Anchor) (edges : List Edge) :
    splitAnchors anchors edges =
      anchors ++ (insertMissingAnchorsGo anchors 0 edges).1 := rfl

/-- Both endpoint ids of every fixed edge occur among the augmented
anchors. -/
theorem endpoints_in_splitAnchors (anchors : List Anchor) (edges : List Edge) :
    ∀ e ∈ splitEdges anchors edges,
      (∃ a ∈ splitAnchors anchors edges, a.aid = e.startId) ∧
      (∃ a ∈ splitAnchors anchors edges, a.aid = e.endId) := by
  intro e he
  obtain ⟨⟨a1, ha1, haid1⟩, ⟨a2, ha2, haid2⟩⟩ :=
    insertGo_endpoints anchors 0 edges e he
  constructor
  · exact ⟨a1, by rw [splitAnchors_eq, List.mem_append]; exact ha1, haid1⟩
  · exact ⟨a2, by rw [splitAnchors_eq, List.mem_append]; exact ha2, haid2⟩

/-- The flattened components are a permutation of the augmented anchors. -/
theorem comps_flatten_perm (anchors : List Anchor) (edges : List Edge) :
    (splitComps anchors edges).flatten.Perm (splitAnchors anchors edges) := by
  have h := foldl_mergeStep_flatten_perm (splitEdges anchors edges)
    ((splitAnchors anchors edges).map fun a => [a])
  rw [flatten_map_singleton] at h
  exact h

/-- The flattened component anchors have pairwise distinct ids. -/
theorem comps_flatten_ids_nodup (anchors : List Anchor) (edges : List Edge)
    (hA : (anchors.map Anchor.aid).Nodup)
    (hOrig : ∀ a ∈ anchors, a.isSynthesized = false) :
    ((splitComps anchors edges).flatten.map Anchor.aid).Nodup := by
  have hperm := (comps_flatten_perm anchors edges).map Anchor.aid
  exact hperm.nodup_iff.mpr
    (insertMissingAnchors_nodup anchors edges hA hOrig)

/-- Anchors occurring in the components with equal ids are equal. -/
theorem comps_flatten_aid_inj (anchors : List Anchor) (edges : List Edge)
    (hA : (anchors.map Anchor.aid).Nodup)
    (hOrig : ∀ a ∈ anchors, a.isSynthesized = false) :
    ∀ x1 ∈ (splitComps anchors edges).flatten,
      ∀ x2 ∈ (splitComps anchors edges).flatten,
        x1.aid = x2.aid → x1 = x2 := by
  intro x1 h1 x2 h2 heq
  exact List.inj_on_of_nodup_map
    (comps_flatten_ids_nodup anchors edges hA hOrig) h1 h2 heq

/-- The component id lists are pairwise disjoint. -/
theorem comps_pairwise_disjoint (anchors : List Anchor) (edges : List Edge)
    (hA : (anchors.map Anchor.aid).Nodup)
    (hOrig : ∀ a ∈ anchors, a.isSynthesized = false) :
    List.Pairwise (fun c d => (compIds c).Disjoint (compIds d))
      (splitComps anchors edges) := by
  have hnd : (((splitComps anchors edges).map compIds).flatten).Nodup := by
    have := comps_flatten_ids_nodup anchors edges hA hOrig
    rw [List.map_flatten] at this
    exact this
  have := (List.nodup_flatten.mp hnd).2
  exact List.pairwise_map.mp this

/-- An id lies in at most one component. -/
theorem comp_unique (anchors : List Anchor) (edges : List Edge)
    (hA : (anchors.map Anchor.aid).Nodup)
    (hOrig : ∀ a ∈ anchors, a.isSynthesized = false)
    {c1 c2 : List Anchor} {x : AnchorId}
    (hc1 : c1 ∈ splitComps anchors edges) (hc2 : c2 ∈ splitComps anchors edges)
    (hx1 : x ∈ compIds c1) (hx2 : x ∈ compIds c2) : c1 = c2 := by
  by_cases h : c1 = c2
  · exact h
  · have hpw := comps_pairwise_disjoint anchors edges hA hOrig
    have hsym : Symmetric fun c d : List Anchor =>
        (compIds c).Disjoint (compIds d) := fun c d hcd => hcd.symm
    exact absurd hx2 (hpw.forall hsym hc1 hc2 h hx1)

/-- Every fixed edge has both endpoints in one component. -/
theorem edgeInComp_all_comps (anchors : List Anchor) (edges : List Edge) :
    ∀ e ∈ splitEdges anchors edges,
      edgeInComp (splitComps anchors edges) e := by
  apply foldl_edgeInComp_all
  intro e he
  rw [flatten_map_singleton]
  exact endpoints_in_splitAnchors anchors edges e he

/-- Every anchor of a non-singleton component is incident to a fixed edge. -/
theorem comps_anchorsOk (anchors : List Anchor) (edges : List Edge) :
    anchorsOk (splitEdges anchors edges) (splitComps anchors edges) :=
  foldl_anchorsOk (splitEdges anchors edges) (splitEdges anchors edges)
    ((splitAnchors anchors edges).map fun a => [a]) (fun _ he => he)
    (anchorsOk_init _ _)

/-- A segment that is dropped carries no edges. -/
theorem segKeep_false_edges (s : Segment) (h : segKeep s = false) :
    s.edges = [] := by
  rw [segKeep] at h
  have h2 := (Bool.or_eq_false_iff.mp h).2
  rw [Bool.not_eq_false'] at h2
  exact List.isEmpty_iff.mp h2

/-- Every fixed edge is assigned to a kept component containing both its
endpoint ids. -/
theorem edge_assigned (anchors : List Anchor) (edges : List Edge) :
    ∀ e ∈ splitEdges anchors edges,
      ∃ c ∈ splitComps anchors edges,
        segKeep (Segment.mk c
          (segmentEdges (splitEdges anchors edges) c)) = true ∧
        e ∈ segmentEdges (splitEdges anchors edges) c ∧
        e.startId ∈ compIds c ∧ e.endId ∈ compIds c := by
  intro e he
  obtain ⟨c, hc, hs, ht⟩ := edgeInComp_all_comps anchors edges e he
  have hmem : e ∈ segmentEdges (splitEdges anchors edges) c :=
    List.mem_filter.mpr ⟨he, (startsInComp_iff e c).mpr hs⟩
  refine ⟨c, hc, ?_, hmem, hs, ht⟩
  rw [segKeep, Bool.or_eq_true]
  right
  have hne : segmentEdges (splitEdges anchors edges) c ≠ [] :=
    List.ne_nil_of_mem hmem
  cases hE : (segmentEdges (splitEdges anchors edges) c).isEmpty
  · rfl
  · exact absurd (List.isEmpty_iff.mp hE) hne

/-- An anchor incident to an input edge is incident to a fixed edge. -/
theorem incident_input_to_fixed (anchors : List Anchor) (edges : List Edge)
    {a : Anchor} (ha : a ∈ anchors) {e : Edge} (he : e ∈ edges)
    (hinc : a.aid = e.startId ∨ a.aid = e.endId) :
    ∃ e2 ∈ splitEdges anchors edges,
      a.aid = e2.startId ∨ a.aid = e2.endId := by
  obtain ⟨e2, he2, hrel⟩ := insertGo_fixRel anchors 0 edges e he
  refine ⟨e2, he2, ?_⟩
  rcases hinc with h | h
  · left
    have hp : hasAnchorId anchors e.startId = true :=
      (hasAnchorId_iff anchors e.startId).mpr ⟨a, ha, h⟩
    rw [hrel.2.1 hp]
    exact h
  · right
    have hp : hasAnchorId anchors e.endId = true :=
      (hasAnchorId_iff anchors e.endId).mpr ⟨a, ha, h⟩
    rw [hrel.2.2.2.1 hp]
    exact h

/-- An input anchor incident to a fixed edge is incident to an input edge. -/
theorem incident_fixed_to_input (anchors : List Anchor) (edges : List Edge)
    (hOrig : ∀ a ∈ anchors, a.isSynthesized = false)
    {a : Anchor} (ha : a ∈ anchors) {e2 : Edge}
    (he2 : e2 ∈ splitEdges anchors edges)
    (hinc : a.aid = e2.startId ∨ a.aid = e2.endId) :
    ∃ e ∈ edges, a.aid = e.startId ∨ a.aid = e.endId := by
  obtain ⟨e, he, _, hs, ht⟩ := insertGo_backward anchors 0 edges e2 he2
  obtain ⟨n, hn⟩ := (isSynthesized_false_iff a).mp (hOrig a ha)
  rcases hinc with h | h
  · rcases hs with hs | ⟨k, hk⟩
    · exact ⟨e, he, Or.inl (by rw [h, hs])⟩
    · rw [hk] at h
      rw [hn] at h
      simp at h
  · rcases ht with ht | ⟨k, hk⟩
    · exact ⟨e, he, Or.inr (by rw [h, ht])⟩
    · rw [hk] at h
      rw [hn] at h
      simp at h

/-- Membership in the split output, in terms of the kept components. -/
theorem mem_split_iff (anchors : List Anchor) (edges : List Edge)
    (s : Segment) :
    s ∈ split anchors edges ↔
      ∃ c ∈ splitComps anchors edges,
        s = Segment.mk c (segmentEdges (splitEdges anchors edges) c) ∧
        segKeep s = true := by
  rw [split_eq, List.mem_filter, List.mem_map]
  constructor
  · rintro ⟨⟨c, hc, rfl⟩, hk⟩
    exact ⟨c, hc, rfl, hk⟩
  · rintro ⟨c, hc, rfl, hk⟩
    exact ⟨⟨c, hc, rfl⟩, hk⟩

/-- Projecting the anchors of the candidate segments gives back the
components. -/
theorem segsAll_map_anchors (comps : List (List Anchor)) (E : List Edge) :
    ((comps.map fun c => Segment.mk c (segmentEdges E c)).map
      Segment.anchors) = comps := by
  rw [List.map_map]
  induction comps with
  | nil => rfl
  | cons c cs ih => simp only [List.map_cons, ih, Function.comp]

/-- The flattened per-component edge lists permute the fixed edges. -/
theorem comps_edges_flatten_perm (anchors : List Anchor) (edges : List Edge)
    (hA : (anchors.map Anchor.aid).Nodup)
    (hOrig : ∀ a ∈ anchors, a.isSynthesized = false) :
    (((splitComps anchors edges).map fun c =>
      segmentEdges (splitEdges anchors edges) c).flatten).Perm
      (splitEdges anchors edges) := by
  rw [List.perm_iff_count]
  intro x
  have hcount := count_flatten_filter (fun c e => startsInComp e c)
    (splitEdges anchors edges) (splitComps anchors edges) x
  rw [show ((splitComps anchors edges).map fun c =>
      segmentEdges (splitEdges anchors edges) c) =
    ((splitComps anchors edges).map fun c =>
      (splitEdges anchors edges).filter
        ((fun c e => startsInComp e c) c)) from rfl]
  rw [hcount]
  by_cases hx : x ∈ splitEdges anchors edges
  · have h1 : (splitComps anchors edges).countP
        (fun c => startsInComp x c) = 1 := by
      apply countP_eq_one_of_pairwise
      · obtain ⟨c, hc, _, _, hs, _⟩ := edge_assigned anchors edges x hx
        exact ⟨c, hc, (startsInComp_iff x c).mpr hs⟩
      · have hpw := comps_pairwise_disjoint anchors edges hA hOrig
        apply hpw.imp
        intro c d hcd hboth
        exact hcd ((startsInComp_iff x c).mp hboth.1)
          ((startsInComp_iff x d).mp hboth.2)
    rw [h1, Nat.one_mul]
  · rw [List.count_eq_zero_of_not_mem hx]
    exact Nat.mul_zero _

/-- The edges of the split output permute the fixed edges. -/
theorem split_edges_flatten_perm (anchors : List Anchor) (edges : List Edge)
    (hA : (anchors.map Anchor.aid).Nodup)
    (hOrig : ∀ a ∈ anchors, a.isSynthesized = false) :
    (((split anchors edges).map Segment.edges).flatten).Perm
      (splitEdges anchors edges) := by
  have hsegs := filter_segKeep_edges_flatten
    ((splitComps anchors edges).map fun c =>
      Segment.mk c (segmentEdges (splitEdges anchors edges) c))
    (fun s _ h => segKeep_false_edges s h)
  rw [split_eq]
  refine hsegs.trans ?_
  rw [List.map_map]
  exact comps_edges_flatten_perm anchors edges hA hOrig

/-- The anchor id sets of the split segments are pairwise disjoint. -/
theorem split_anchor_sets_disjoint (anchors : List Anchor) (edges : List Edge)
    (hA : (anchors.map Anchor.aid).Nodup)
    (hOrig : ∀ a ∈ anchors, a.isSynthesized = false) :
    List.Pairwise (fun s1 s2 : Segment =>
      ∀ x, x ∈ s1.anchors.map Anchor.aid → x ∉ s2.anchors.map Anchor.aid)
      (split anchors edges) := by
  rw [split_eq]
  apply List.Pairwise.filter
  rw [List.pairwise_map]
  have hpw := comps_pairwise_disjoint anchors edges hA hOrig
  apply hpw.imp
  intro c d hcd x hx1 hx2
  exact hcd hx1 hx2

/-- The edge sets of the split segments are pairwise disjoint. -/
theorem split_edge_sets_disjoint (anchors : List Anchor) (edges : List Edge)
    (hA : (anchors.map Anchor.aid).Nodup)
    (hOrig : ∀ a ∈ anchors, a.isSynthesized = false) :
    List.Pairwise (fun s1 s2 : Segment =>
      ∀ e, e ∈ s1.edges → e ∉ s2.edges) (split anchors edges) := by
  rw [split_eq]
  apply List.Pairwise.filter
  rw [List.pairwise_map]
  have hpw := comps_pairwise_disjoint anchors edges hA hOrig
  apply hpw.imp
  intro c d hcd e he1 he2
  have h1 := (startsInComp_iff e c).mp (List.mem_filter.mp he1).2
  have h2 := (startsInComp_iff e d).mp (List.mem_filter.mp he2).2
  exact hcd h1 h2

/-- The original anchors of the split output are exactly the surviving input
anchors. -/
theorem split_anchors_union_perm (anchors : List Anchor) (edges : List Edge)
    (hA : (anchors.map Anchor.aid).Nodup)
    (hOrig : ∀ a ∈ anchors, a.isSynthesized = false) :
    ((((split anchors edges).map Segment.anchors).flatten).filter
      (fun a => ! a.isSynthesized)).Perm
      (anchors.filter (keepAnchor edges)) := by
  apply perm_of_nodup_of_mem_iff
  · apply List.Nodup.filter
    have hsub : (((split anchors edges).map Segment.anchors).flatten).Sublist
        ((splitComps anchors edges).flatten) := by
      rw [split_eq]
      apply flatten_sublist_of_sublist
      have hf := List.filter_sublist (p := segKeep)
        ((splitComps anchors edges).map fun c =>
          Segment.mk c (segmentEdges (splitEdges anchors edges) c))
      have hm := hf.map Segment.anchors
      rw [segsAll_map_anchors] at hm
      exact hm
    exact hsub.nodup
      (List.Nodup.of_map _ (comps_flatten_ids_nodup anchors edges hA hOrig))
  · exact (List.Nodup.of_map _ hA).filter _
  · intro x
    constructor
    · intro hx
      have hx1 := List.mem_filter.mp hx
      obtain ⟨l, hl, hxl⟩ := List.mem_flatten.mp hx1.1
      obtain ⟨s, hs, rfl⟩ := List.mem_map.mp hl
      obtain ⟨c, hc, hseq, hk⟩ := (mem_split_iff anchors edges s).mp hs
      have hxc : x ∈ c := by rw [hseq] at hxl; exact hxl
      have hxanch : x ∈ anchors := by
        have hxf : x ∈ (splitComps anchors edges).flatten :=
          List.mem_flatten_of_mem hc hxc
        have hxa2 : x ∈ splitAnchors anchors edges :=
          (comps_flatten_perm anchors edges).mem_iff.mp hxf
        rw [splitAnchors_eq, List.mem_append] at hxa2
        rcases hxa2 with hxa2 | hxa2
        · exact hxa2
        · have := (insertGo_syn_facts anchors 0 edges x hxa2).2.1
          rw [this] at hx1
          simp at hx1
      refine List.mem_filter.mpr ⟨hxanch, ?_⟩
      rcases comps_anchorsOk anchors edges c hc x hxc with hsing | hincid
      · rw [hseq] at hk
        rw [segKeep, Bool.or_eq_true] at hk
        rcases hk with hk | hk
        · rw [hsing] at hk
          simp only [List.any_cons, List.any_nil, Bool.or_false,
            decide_eq_true_eq] at hk
          rw [keepAnchor, Bool.or_eq_true]
          exact Or.inl (decide_eq_true hk)
        · rw [Bool.not_eq_true'] at hk
          have hne : segmentEdges (splitEdges anchors edges) c ≠ [] := by
            intro hnil
            rw [hnil] at hk
            simp at hk
          obtain ⟨e2, he2⟩ := List.exists_mem_of_ne_nil _ hne
          have he2f := List.mem_filter.mp he2
          have hsid := (startsInComp_iff e2 c).mp he2f.2
          rw [hsing] at hsid
          simp only [compIds, List.map_cons, List.map_nil,
            List.mem_singleton] at hsid
          obtain ⟨e, he, heinc⟩ := incident_fixed_to_input anchors edges
            hOrig hxanch he2f.1 (Or.inl hsid.symm)
          rw [keepAnchor, Bool.or_eq_true]
          right
          rw [List.any_eq_true]
          exact ⟨e, he, by rw [incidentB]; exact decide_eq_true heinc⟩
      · obtain ⟨e2, he2, hinc2⟩ := hincid
        obtain ⟨e, he, heinc⟩ := incident_fixed_to_input anchors edges
          hOrig hxanch he2 hinc2
        rw [keepAnchor, Bool.or_eq_true]
        right
        rw [List.any_eq_true]
        exact ⟨e, he, by rw [incidentB]; exact decide_eq_true heinc⟩
    · intro hx
      have hx1 := List.mem_filter.mp hx
      have hxa2 : x ∈ splitAnchors anchors edges := by
        rw [splitAnchors_eq, List.mem_append]
        exact Or.inl hx1.1
      have hxf : x ∈ (splitComps anchors edges).flatten :=
        (comps_flatten_perm anchors edges).mem_iff.mpr hxa2
      obtain ⟨c, hc, hxc⟩ := List.mem_flatten.mp hxf
      have hkeep := hx1.2
      rw [keepAnchor, Bool.or_eq_true] at hkeep
      have hfound : ∃ c2 ∈ splitComps anchors edges, x ∈ c2 ∧
          segKeep (Segment.mk c2
            (segmentEdges (splitEdges anchors edges) c2)) = true := by
        rcases hkeep with hkeep | hkeep
        · refine ⟨c, hc, hxc, ?_⟩
          rw [segKeep, Bool.or_eq_true]
          left
          rw [List.any_eq_true]
          exact ⟨x, hxc, hkeep⟩
        · rw [List.any_eq_true] at hkeep
          obtain ⟨e, he, hei⟩ := hkeep
          rw [incidentB, decide_eq_true_eq] at hei
          obtain ⟨e2, he2, hinc2⟩ :=
            incident_input_to_fixed anchors edges hx1.1 he hei
          obtain ⟨c2, hc2, hk2, _, hsid, htid⟩ :=
            edge_assigned anchors edges e2 he2
          have hxid : x.aid ∈ compIds c2 := by
            rcases hinc2 with h | h
            · rw [h]; exact hsid
            · rw [h]; exact htid
          obtain ⟨y, hyc2, hyid⟩ := List.mem_map.mp hxid
          have hyx : y = x := comps_flatten_aid_inj anchors edges hA hOrig
            y (List.mem_flatten_of_mem hc2 hyc2) x hxf hyid
          rw [hyx] at hyc2
          exact ⟨c2, hc2, hyc2, hk2⟩
      obtain ⟨c2, hc2, hxc2, hk2⟩ := hfound
      refine List.mem_filter.mpr ⟨?_, ?_⟩
      · apply List.mem_flatten_of_mem (l := c2)
        · apply List.mem_map.mpr
          refine ⟨Segment.mk c2
            (segmentEdges (splitEdges anchors edges) c2), ?_, rfl⟩
          exact (mem_split_iff anchors edges _).mpr ⟨c2, hc2, rfl, hk2⟩
        · exact hxc2
      · rw [hOrig x hx1.1]
        rfl

/-- Every junction in a split segment has an incident edge in that
segment. -/
theorem split_junction_has_incident_edge (anchors : List Anchor)
    (edges : List Edge) (hA : (anchors.map Anchor.aid).Nodup)
    (hOrig : ∀ a ∈ anchors, a.isSynthesized = false) :
    ∀ s ∈ split anchors edges, ∀ a ∈ s.anchors,
      a.kind = AnchorKind.junction →
      ∃ e ∈ s.edges, a.aid = e.startId ∨ a.aid = e.endId := by
  intro s hs a has hjunc
  obtain ⟨c, hc, hseq, hk⟩ := (mem_split_iff anchors edges s).mp hs
  have hac : a ∈ c := by rw [hseq] at has; exact has
  rcases comps_anchorsOk anchors edges c hc a hac with hsing | hincid
  · rw [hseq, segKeep, Bool.or_eq_true] at hk
    rcases hk with hk | hk
    · rw [hsing] at hk
      simp only [List.any_cons, List.any_nil, Bool.or_false,
        decide_eq_true_eq] at hk
      exact absurd hjunc hk
    · rw [Bool.not_eq_true'] at hk
      have hne : segmentEdges (splitEdges anchors edges) c ≠ [] := by
        intro hnil
        rw [hnil] at hk
        simp at hk
      obtain ⟨e2, he2⟩ := List.exists_mem_of_ne_nil _ hne
      have he2f := List.mem_filter.mp he2
      have hsid := (startsInComp_iff e2 c).mp he2f.2
      rw [hsing] at hsid
      simp only [compIds, List.map_cons, List.map_nil,
        List.mem_singleton] at hsid
      refine ⟨e2, ?_, Or.inl hsid.symm⟩
      rw [hseq]
      exact he2
  · obtain ⟨e2, he2, hinc2⟩ := hincid
    obtain ⟨c2, hc2, _, hmem2, hsid2, htid2⟩ :=
      edge_assigned anchors edges e2 he2
    have haidc : a.aid ∈ compIds c := List.mem_map.mpr ⟨a, hac, rfl⟩
    have haidc2 : a.aid ∈ compIds c2 := by
      rcases hinc2 with h | h
      · rw [h]; exact hsid2
      · rw [h]; exact htid2
    have hceq : c = c2 :=
      comp_unique anchors edges hA hOrig hc hc2 haidc haidc2
    refine ⟨e2, ?_, hinc2⟩
    rw [hseq, hceq]
    exact hmem2

/-- A zero-degree via or pad is kept as its own single-anchor segment. -/
theorem split_isolated_viapad_kept (anchors : List Anchor) (edges : List Edge)
    (hOrig : ∀ a ∈ anchors, a.isSynthesized = false) :
    ∀ a ∈ anchors, a.kind ≠ AnchorKind.junction →
      (∀ e ∈ edges, a.aid ≠ e.startId ∧ a.aid ≠ e.endId) →
      Segment.mk [a] [] ∈ split anchors edges := by
  intro a ha hkind hnoinc
  have haid : a ∈ splitAnchors anchors edges := by
    rw [splitAnchors_eq, List.mem_append]
    exact Or.inl ha
  have hfree : ∀ e2 ∈ splitEdges anchors edges,
      incidentB e2 a.aid = false := by
    intro e2 he2
    cases hb : incidentB e2 a.aid
    · rfl
    · rw [incidentB, decide_eq_true_eq] at hb
      obtain ⟨e, he, hinc⟩ :=
        incident_fixed_to_input anchors edges hOrig ha he2 hb
      rcases hinc with h | h
      · exact absurd h (hnoinc e he).1
      · exact absurd h (hnoinc e he).2
  have hsing : [a] ∈ splitComps anchors edges :=
    foldl_untouched_singleton (splitEdges anchors edges)
      ((splitAnchors anchors edges).map fun a => [a]) a hfree
      (List.mem_map.mpr ⟨a, haid, rfl⟩)
  have hnil : segmentEdges (splitEdges anchors edges) [a] = [] := by
    rw [segmentEdges, List.filter_eq_nil_iff]
    intro e2 he2 hcontra
    have hsid := (startsInComp_iff e2 [a]).mp hcontra
    simp only [compIds, List.map_cons, List.map_nil,
      List.mem_singleton] at hsid
    have hf := hfree e2 he2
    rw [incidentB, decide_eq_false_iff_not] at hf
    exact hf (Or.inl hsid.symm)
  apply (mem_split_iff anchors edges _).mpr
  refine ⟨[a], hsing, by rw [hnil], ?_⟩
  rw [segKeep, Bool.or_eq_true]
  left
  rw [List.any_eq_true]
  exact ⟨a, List.mem_singleton.mpr rfl, decide_eq_true hkind⟩

/-- A zero-degree junction appears in no split segment. -/
theorem split_isolated_junction_dropped (anchors : List Anchor)
    (edges : List Edge) (hA : (anchors.map Anchor.aid).Nodup)
    (hOrig : ∀ a ∈ anchors, a.isSynthesized = false) :
    ∀ a ∈ anchors, a.kind = AnchorKind.junction →
      (∀ e ∈ edges, a.aid ≠ e.startId ∧ a.aid ≠ e.endId) →
      ∀ s ∈ split anchors edges, a ∉ s.anchors := by
  intro a ha hjunc hnoinc s hs hmem
  obtain ⟨e2, he2, hinc⟩ :=
    split_junction_has_incident_edge anchors edges hA hOrig s hs a hmem hjunc
  obtain ⟨c, hc, hseq, _⟩ := (mem_split_iff anchors edges s).mp hs
  have he2E : e2 ∈ splitEdges anchors edges := by
    rw [hseq] at he2
    exact (List.mem_filter.mp he2).1
  obtain ⟨e, he, heinc⟩ :=
    incident_fixed_to_input anchors edges hOrig ha he2E hinc
  rcases heinc with h | h
  · exact absurd h (hnoinc e he).1
  · exact absurd h (hnoinc e he).2

/-! ## C2: partition property of split -/

/-- C2 counterexample: the partition property as stated fails — for the
input consisting of a single zero-degree junction and no edges, `split`
drops the junction, so the union of the output anchor sets minus the
synthesized anchors is empty and does not equal the input anchor set. -/
theorem split_partition_counterexample :
    ¬ ((((split [⟨Sum.inl 0, AnchorKind.junction, ⟨0, 0⟩⟩] []).map
        Segment.anchors).flatten).filter (fun a => ! a.isSynthesized)).Perm
      [⟨Sum.inl 0, AnchorKind.junction, ⟨0, 0⟩⟩] := by
  decide

/-- C2 (amended): the split segments have pairwise disjoint anchor id sets
and pairwise disjoint edge sets; the union of their anchors, minus the
synthesized anchors, equals the input anchors minus the dropped zero-degree
junctions (junctions with no incident edge); the union of their edges equals
the input edges exactly (by identity — no edge synthesized, no edge lost). -/
theorem split_partition (anchors : List Anchor) (edges : List Edge)
    (hA : (anchors.map Anchor.aid).Nodup)
    (hOrig : ∀ a ∈ anchors, a.isSynthesized = false) :
    List.Pairwise (fun s1 s2 : Segment =>
      ∀ x, x ∈ s1.anchors.map Anchor.aid → x ∉ s2.anchors.map Anchor.aid)
      (split anchors edges) ∧
    ((((split anchors edges).map Segment.anchors).flatten).filter
      (fun a => ! a.isSynthesized)).Perm
      (anchors.filter (keepAnchor edges)) ∧
    List.Pairwise (fun s1 s2 : Segment =>
      ∀ e, e ∈ s1.edges → e ∉ s2.edges) (split anchors edges) ∧
    ((((split anchors edges).map Segment.edges).flatten).map Edge.eid).Perm
      (edges.map Edge.eid) := by
  refine ⟨split_anchor_sets_disjoint anchors edges hA hOrig,
    split_anchors_union_perm anchors edges hA hOrig,
    split_edge_sets_disjoint anchors edges hA hOrig, ?_⟩
  have h := (split_edges_flatten_perm anchors edges hA hOrig).map Edge.eid
  rw [splitEdges_map_eid] at h
  exact h

/-- Witness for the amended C2 at a concrete input: a via and a junction
joined by one edge. -/
theorem split_partition_witness :
    ((((split [⟨Sum.inl 0, AnchorKind.via, ⟨0, 0⟩⟩,
        ⟨Sum.inl 1, AnchorKind.junction, ⟨1, 0⟩⟩]
        [⟨0, Sum.inl 0, Sum.inl 1, ⟨0, 0⟩, ⟨1, 0⟩⟩]).map
        Segment.anchors).flatten).filter (fun a => ! a.isSynthesized)).Perm
      ([⟨Sum.inl 0, AnchorKind.via, ⟨0, 0⟩⟩,
        ⟨Sum.inl 1, AnchorKind.junction, ⟨1, 0⟩⟩].filter
        (keepAnchor [⟨0, Sum.inl 0, Sum.inl 1, ⟨0, 0⟩, ⟨1, 0⟩⟩])) :=
  (split_partition
    [⟨Sum.inl 0, AnchorKind.via, ⟨0, 0⟩⟩,
     ⟨Sum.inl 1, AnchorKind.junction, ⟨1, 0⟩⟩]
    [⟨0, Sum.inl 0, Sum.inl 1, ⟨0, 0⟩, ⟨1, 0⟩⟩]
    (by decide) (by decide)).2.1

/-! ## C4: zero-degree anchors -/

/-- C4: no split segment contains a zero-degree junction — a component that
is solely a zero-degree junction is dropped — while a zero-degree via or pad
is emitted as its own valid single-anchor segment. -/
theorem split_zero_degree (anchors : List Anchor) (edges : List Edge)
    (hA : (anchors.map Anchor.aid).Nodup)
    (hOrig : ∀ a ∈ anchors, a.isSynthesized = false) :
    (∀ s ∈ split anchors edges, ∀ a ∈ s.anchors,
      a.kind = AnchorKind.junction →
      ∃ e ∈ s.edges, a.aid = e.startId ∨ a.aid = e.endId) ∧
    (∀ a ∈ anchors, a.kind ≠ AnchorKind.junction →
      (∀ e ∈ edges, a.aid ≠ e.startId ∧ a.aid ≠ e.endId) →
      Segment.mk [a] [] ∈ split anchors edges) ∧
    (∀ a ∈ anchors, a.kind = AnchorKind.junction →
      (∀ e ∈ edges, a.aid ≠ e.startId ∧ a.aid ≠ e.endId) →
      ∀ s ∈ split anchors edges, a ∉ s.anchors) :=
  ⟨split_junction_has_incident_edge anchors edges hA hOrig,
   split_isolated_viapad_kept anchors edges hOrig,
   split_isolated_junction_dropped anchors edges hA hOrig⟩

/-- Witness for C4: a lone via is emitted as its own segment. -/
theorem split_zero_degree_witness :
    Segment.mk [⟨Sum.inl 0, AnchorKind.via, ⟨0, 0⟩⟩] [] ∈
      split [⟨Sum.inl 0, AnchorKind.via, ⟨0, 0⟩⟩] [] :=
  (split_zero_degree [⟨Sum.inl 0, AnchorKind.via, ⟨0, 0⟩⟩] []
    (by decide) (by decide)).2.1
    ⟨Sum.inl 0, AnchorKind.via, ⟨0, 0⟩⟩ (by decide) (by decide)
    (by intro e he; cases he)

/-! ## C5: synthesis of missing endpoint anchors -/

/-- C5: every input edge survives into some split segment with its identity;
a present endpoint is kept, and a missing endpoint is replaced by a
synthesized junction, placed at the edge endpoint's former position, that
lies in the same output segment. -/
theorem split_synthesizes (anchors : List Anchor) (edges : List Edge)
    (hA : (anchors.map Anchor.aid).Nodup)
    (hOrig : ∀ a ∈ anchors, a.isSynthesized = false) :
    ∀ e ∈ edges, ∃ s ∈ split anchors edges, ∃ e2 ∈ s.edges,
      e2.eid = e.eid ∧
      (hasAnchorId anchors e.startId = true → e2.startId = e.startId) ∧
      (hasAnchorId anchors e.startId = false →
        ∃ a ∈ s.anchors, a.isSynthesized = true ∧
          a.kind = AnchorKind.junction ∧ a.pos = e.startPos ∧
          e2.startId = a.aid) ∧
      (hasAnchorId anchors e.endId = true → e2.endId = e.endId) ∧
      (hasAnchorId anchors e.endId = false →
        ∃ a ∈ s.anchors, a.isSynthesized = true ∧
          a.kind = AnchorKind.junction ∧ a.pos = e.endPos ∧
          e2.endId = a.aid) := by
  intro e he
  obtain ⟨e2, he2, hrel⟩ := insertGo_fixRel anchors 0 edges e he
  obtain ⟨c, hc, hk, hmem, hsid, htid⟩ := edge_assigned anchors edges e2 he2
  have hsynmem : ∀ a, a ∈ (insertMissingAnchorsGo anchors 0 edges).1 →
      a.aid = e2.startId ∨ a.aid = e2.endId → a ∈ c := by
    intro a ha hid
    have haid : a.aid ∈ compIds c := by
      rcases hid with h | h
      · rw [h]; exact hsid
      · rw [h]; exact htid
    obtain ⟨y, hyc, hyid⟩ := List.mem_map.mp haid
    have hafl : a ∈ (splitComps anchors edges).flatten := by
      apply (comps_flatten_perm anchors edges).mem_iff.mpr
      rw [splitAnchors_eq, List.mem_append]
      exact Or.inr ha
    have hyx : y = a := comps_flatten_aid_inj anchors edges hA hOrig
      y (List.mem_flatten_of_mem hc hyc) a hafl hyid
    rw [← hyx]
    exact hyc
  refine ⟨Segment.mk c (segmentEdges (splitEdges anchors edges) c),
    (mem_split_iff anchors edges _).mpr ⟨c, hc, rfl, hk⟩, e2, hmem,
    hrel.1, hrel.2.1, ?_, hrel.2.2.2.1, ?_⟩
  · intro hmiss
    obtain ⟨a, ha, haid, hakind, hapos, hasyn⟩ := hrel.2.2.1 hmiss
    exact ⟨a, hsynmem a ha (Or.inl haid), hasyn, hakind, hapos, haid.symm⟩
  · intro hmiss
    obtain ⟨a, ha, haid, hakind, hapos, hasyn⟩ := hrel.2.2.2.2 hmiss
    exact ⟨a, hsynmem a ha (Or.inr haid), hasyn, hakind, hapos, haid.symm⟩

/-- Witness for C5: one edge from a via to a missing anchor id; the split
keeps the edge and synthesizes a junction for the missing endpoint. -/
theorem split_synthesizes_witness :
    ∃ s ∈ split [⟨Sum.inl 0, AnchorKind.via, ⟨0, 0⟩⟩]
        [⟨7, Sum.inl 0, Sum.inl 99, ⟨0, 0⟩, ⟨5, 5⟩⟩], ∃ e2 ∈ s.edges,
      e2.eid = (⟨7, Sum.inl 0, Sum.inl 99, ⟨0, 0⟩, ⟨5, 5⟩⟩ : Edge).eid ∧
      (hasAnchorId [⟨Sum.inl 0, AnchorKind.via, ⟨0, 0⟩⟩] (Sum.inl 0) = true →
        e2.startId = Sum.inl 0) ∧
      (hasAnchorId [⟨Sum.inl 0, AnchorKind.via, ⟨0, 0⟩⟩] (Sum.inl 0) = false →
        ∃ a ∈ s.anchors, a.isSynthesized = true ∧
          a.kind = AnchorKind.junction ∧ a.pos = ⟨0, 0⟩ ∧
          e2.startId = a.aid) ∧
      (hasAnchorId [⟨Sum.inl 0, AnchorKind.via, ⟨0, 0⟩⟩] (Sum.inl 99) = true →
        e2.endId = Sum.inl 99) ∧
      (hasAnchorId [⟨Sum.inl 0, AnchorKind.via, ⟨0, 0⟩⟩] (Sum.inl 99) = false →
        ∃ a ∈ s.anchors, a.isSynthesized = true ∧
          a.kind = AnchorKind.junction ∧ a.pos = ⟨5, 5⟩ ∧
          e2.endId = a.aid) :=
  split_synthesizes [⟨Sum.inl 0, AnchorKind.via, ⟨0, 0⟩⟩]
    [⟨7, Sum.inl 0, Sum.inl 99, ⟨0, 0⟩, ⟨5, 5⟩⟩] (by decide) (by decide)
    ⟨7, Sum.inl 0, Sum.inl 99, ⟨0, 0⟩, ⟨5, 5⟩⟩ (by decide)

/-! ## C10: NetPoint::setPosition -/

/-- C10: `setPosition(p)` returns false, changes nothing and emits no event
when `p` equals the current position; otherwise it sets the position, emits
exactly one PositionChanged event, returns true, and keeps the uuid. -/
theorem netPoint_setPosition_spec (np : NetPoint) (p : Point) :
    (p = np.position → np.setPosition p = (np, false, [])) ∧
    (p ≠ np.position →
      np.setPosition p = (⟨np.uuid, p⟩, true, [NetPointEvent.positionChanged])) := by
  constructor
  · intro h
    simp [NetPoint.setPosition, h]
  · intro h
    simp [NetPoint.setPosition, h]

/-- Witness for C10 at concrete inputs. -/
theorem netPoint_setPosition_spec_witness :
    NetPoint.setPosition ⟨7, ⟨1, 2⟩⟩ ⟨1, 2⟩ = (⟨7, ⟨1, 2⟩⟩, false, []) ∧
    NetPoint.setPosition ⟨7, ⟨1, 2⟩⟩ ⟨3, 2⟩ =
      (⟨7, ⟨3, 2⟩⟩, true, [NetPointEvent.positionChanged]) :=
  ⟨(netPoint_setPosition_spec ⟨7, ⟨1, 2⟩⟩ ⟨1, 2⟩).1 rfl,
   (netPoint_setPosition_spec ⟨7, ⟨1, 2⟩⟩ ⟨3, 2⟩).2 (by decide)⟩

/-! ## C9: BoardClipboardDataBuilder::generate -/

/-- C9: for every selection, the generated clipboard data has an empty net
segment list (the net-segment export path is disabled in the source), while
devices, planes, polygons, stroke texts and holes of the selection are
exported. -/
theorem boardClipboard_generate_spec (query : BoardSelectionQuery) :
    (BoardClipboardDataBuilder.generate query).netSegments = [] ∧
    (BoardClipboardDataBuilder.generate query).devices =
      query.deviceInstances.map clipDeviceOfBI ∧
    (BoardClipboardDataBuilder.generate query).planes = query.planes ∧
    (BoardClipboardDataBuilder.generate query).polygons = query.polygons ∧
    (BoardClipboardDataBuilder.generate query).strokeTexts = query.strokeTexts ∧
    (BoardClipboardDataBuilder.generate query).holes = query.holes :=
  ⟨rfl, rfl, rfl, rfl, rfl, rfl⟩

/-! ## C6: logic fault on unresolved trace endpoint during board paste -/

/-- C6: when either endpoint (or the layer) of a pasted trace resolves to no
live object, the trace construction raises a logic fault; a netline is added
only when both endpoints and the layer resolve, and then with exactly the
resolved objects. -/
theorem pasteTrace_logic_fault (start endA layer : Option Nat) (w : Nat) :
    ((start = none ∨ endA = none ∨ layer = none) →
      addPastedNetLine start endA layer w = Except.error LogicFault.logicError) ∧
    (∀ nl, addPastedNetLine start endA layer w = Except.ok nl →
      start = some nl.startAnchor ∧ endA = some nl.endAnchor ∧
      layer = some nl.layer ∧ nl.width = w) := by
  constructor
  · rintro (h | h | h) <;> subst h
    · cases endA <;> cases layer <;> rfl
    · cases start <;> cases layer <;> rfl
    · cases start <;> cases endA <;> rfl
  · intro nl h
    cases start <;> cases endA <;> cases layer <;>
      simp [addPastedNetLine] at h
    simp [← h]

/-- Witness for C6 at concrete inputs. -/
theorem pasteTrace_logic_fault_witness :
    addPastedNetLine none (some 1) (some 2) 5 =
      Except.error LogicFault.logicError :=
  (pasteTrace_logic_fault none (some 1) (some 2) 5).1 (Or.inl rfl)

/-! ## C7: getOrCreateNetSignal -/

/-- C7: if a net signal with the requested name exists, it is returned and
the circuit is unchanged; otherwise a new net signal is created, after
auto-creating the net class "default" when no such net class exists — the
absence is handled by creation, never surfaced as an error (the function is
total). -/
theorem getOrCreateNetSignal_spec (c : Circuit) (name : String) :
    (name ∈ c.netSignals → getOrCreateNetSignal c name = (c, name)) ∧
    (name ∉ c.netSignals →
      "default" ∈ (getOrCreateNetSignal c name).1.netClasses ∧
      (getOrCreateNetSignal c name).1.netSignals =
        c.netSignals ++ [(getOrCreateNetSignal c name).2] ∧
      ("default" ∈ c.netClasses →
        (getOrCreateNetSignal c name).1.netClasses = c.netClasses) ∧
      ("default" ∉ c.netClasses →
        (getOrCreateNetSignal c name).1.netClasses =
          c.netClasses ++ ["default"])) := by
  constructor
  · intro h
    simp [getOrCreateNetSignal, h]
  · intro h
    by_cases hd : "default" ∈ c.netClasses <;>
      simp [getOrCreateNetSignal, h, hd, cmdNetSignalAdd, cmdNetClassAdd]

/-- Witness for C7 at concrete inputs. -/
theorem getOrCreateNetSignal_spec_witness :
    getOrCreateNetSignal ⟨["GND"], [], 0⟩ "GND" = (⟨["GND"], [], 0⟩, "GND") ∧
    "default" ∈ (getOrCreateNetSignal ⟨["GND"], [], 0⟩ "VCC").1.netClasses :=
  ⟨(getOrCreateNetSignal_spec ⟨["GND"], [], 0⟩ "GND").1 (by simp),
   ((getOrCreateNetSignal_spec ⟨["GND"], [], 0⟩ "VCC").2 (by simp)).1⟩

/-! ## C3: full removal removes the whole net segment, no splitter -/

/-- C3: in `CmdRemoveBoardItems::performExecute`, a net segment whose every
via and netline is selected is removed whole (single remove command, no
splitter); the splitter path is taken exactly when the selected items are a
proper subset of the segment's items. -/
theorem removeBoardItems_segment_decision (seg sel : NetSegmentItems)
    (hv : sel.vias ⊆ seg.vias) (hn : sel.netlines ⊆ seg.netlines) :
    (removeActionFor seg sel = RemoveAction.removeWholeSegment ↔
      sel.vias = seg.vias ∧ sel.netlines = seg.netlines) ∧
    (removeActionFor seg sel = RemoveAction.splitUpSegment ↔
      segmentItems sel ⊂ segmentItems seg) := by
  have hsub : segmentItems sel ⊆ segmentItems seg :=
    Finset.union_subset_union (Finset.image_subset_image hv)
      (Finset.image_subset_image hn)
  have heq : segmentItems sel = segmentItems seg ↔
      (sel.vias = seg.vias ∧ sel.netlines = seg.netlines) := by
    constructor
    · intro h
      constructor
      · ext a
        constructor
        · intro ha; exact hv ha
        · intro ha
          have hmem : Sum.inl a ∈ segmentItems seg := by
            simp only [segmentItems, Finset.mem_union, Finset.mem_image]
            exact Or.inl ⟨a, ha, rfl⟩
          rw [← h] at hmem
          simp only [segmentItems, Finset.mem_union, Finset.mem_image] at hmem
          rcases hmem with ⟨x, hx, hxa⟩ | ⟨x, _, hxa⟩
          · cases hxa; exact hx
          · cases hxa
      · ext a
        constructor
        · intro ha; exact hn ha
        · intro ha
          have hmem : Sum.inr a ∈ segmentItems seg := by
            simp only [segmentItems, Finset.mem_union, Finset.mem_image]
            exact Or.inr ⟨a, ha, rfl⟩
          rw [← h] at hmem
          simp only [segmentItems, Finset.mem_union, Finset.mem_image] at hmem
          rcases hmem with ⟨x, _, hxa⟩ | ⟨x, hx, hxa⟩
          · cases hxa
          · cases hxa; exact hx
    · rintro ⟨h1, h2⟩
      simp [segmentItems, h1, h2]
  constructor
  · by_cases h : sel.vias = seg.vias ∧ sel.netlines = seg.netlines <;>
      simp [removeActionFor, h]
  · have hact : removeActionFor seg sel = RemoveAction.splitUpSegment ↔
        ¬(sel.vias = seg.vias ∧ sel.netlines = seg.netlines) := by
      by_cases h : sel.vias = seg.vias ∧ sel.netlines = seg.netlines <;>
        simp [removeActionFor, h]
    rw [hact, ← heq, Finset.ssubset_iff_subset_ne]
    simp [hsub]

/-- Witness for C3 at concrete inputs. -/
theorem removeBoardItems_segment_decision_witness :
    removeActionFor ⟨{1}, {2}⟩ ⟨{1}, {2}⟩ = RemoveAction.removeWholeSegment ∧
    removeActionFor ⟨{1}, {2}⟩ ⟨{1}, ∅⟩ = RemoveAction.splitUpSegment :=
  ⟨(removeBoardItems_segment_decision ⟨{1}, {2}⟩ ⟨{1}, {2}⟩ (by decide)
      (by decide)).1.mpr (by decide),
   (removeBoardItems_segment_decision ⟨{1}, {2}⟩ ⟨{1}, ∅⟩ (by decide)
      (by decide)).2.mpr (by decide)⟩

/-! ## C1, C8: command group engine -/

/-- The log of the rollback guard is the undo entries of the executed
children, most recently executed first. -/
theorem performUndoChildren_log {σ : Type} (done : List (UndoCommand σ))
    (s : σ) : (performUndoChildren done s).2 = done.map undoEntry := by
  induction done generalizing s with
  | nil => rfl
  | cons c rest ih => simp [performUndoChildren, ih]

/-- Failure run of the group loop: executed prefix, failing child, arbitrary
suffix; the final state is the rollback of everything executed. -/
theorem performExecuteGo_fail {σ : Type} :
    ∀ (pre : List (UndoCommand σ)) (cfail : UndoCommand σ)
      (rest done : List (UndoCommand σ)) (s s0 s1 : σ),
      (∀ c ∈ pre, UndoInverts c) →
      execAll pre s = some s1 → cfail.execute s1 = none →
      (performUndoChildren done s).1 = s0 →
      performExecuteGo (pre ++ cfail :: rest) s done (done.map execEntry) =
        ⟨false, false, s0,
         (done.reverse ++ pre).map execEntry ++
           (pre.reverse ++ done).map undoEntry, false⟩ := by
  intro pre
  induction pre with
  | nil =>
    intro cfail rest done s s0 s1 hinv hpre hfail hundo
    simp only [execAll, Option.some.injEq] at hpre
    subst hpre
    simp [performExecuteGo, hfail, performUndoChildren_log, hundo,
      List.map_reverse]
  | cons d pre2 ih =>
    intro cfail rest done s s0 s1 hinv hpre hfail hundo
    cases hd : d.execute s with
    | none => simp [execAll, hd] at hpre
    | some s2 =>
      simp only [execAll, hd] at hpre
      have hinv2 : ∀ c ∈ pre2, UndoInverts c := fun c hc =>
        hinv c (List.mem_cons_of_mem _ hc)
      have hdinv : d.undo s2 = s := hinv d (List.mem_cons_self _ _) s s2 hd
      have hu : (performUndoChildren (d :: done) s2).1 = s0 := by
        simp [performUndoChildren, hdinv, hundo]
      have hrec := ih cfail rest (d :: done) s2 s0 s1 hinv2 hpre hfail hu
      have hstep :
          performExecuteGo ((d :: pre2) ++ cfail :: rest) s done
            (done.map execEntry) =
          performExecuteGo (pre2 ++ cfail :: rest) s2 (d :: done)
            ((d :: done).map execEntry) := by
        simp [performExecuteGo, hd, execEntry]
      rw [hstep, hrec]
      simp [List.reverse_cons, List.append_assoc]

/-- C1: if the k-th child of a command group faults, `performExecute` aborts
the remaining children (no log entries for them), undoes the executed
children in reverse order, reports failure without dismissing the guard, and
leaves the model state equal to the state before the call. -/
theorem undoGroup_rollback_atomicity {σ : Type} (pre : List (UndoCommand σ))
    (cfail : UndoCommand σ) (rest : List (UndoCommand σ)) (s0 s1 : σ)
    (hinv : ∀ c ∈ pre, UndoInverts c)
    (hpre : execAll pre s0 = some s1) (hfail : cfail.execute s1 = none) :
    performExecute (pre ++ cfail :: rest) s0 =
      ⟨false, false, s0,
       pre.map execEntry ++ pre.reverse.map undoEntry, false⟩ := by
  have h := performExecuteGo_fail pre cfail rest [] s0 s0 s1 hinv hpre hfail rfl
  simpa [performExecute] using h

/-- Witness for C1: a group of two commands over `Nat` where the second
faults; the first is executed then undone, and the state returns to 0. -/
theorem undoGroup_rollback_atomicity_witness :
    performExecute
      [(⟨1, fun s => some (s + 1), fun s => s - 1⟩ : UndoCommand Nat),
       ⟨2, fun _ => none, fun s => s⟩] 0 =
      ⟨false, false, 0, [(1, UndoAct.exec), (1, UndoAct.undo)], false⟩ := by
  have hinv : ∀ c ∈ [(⟨1, fun s => some (s + 1), fun s => s - 1⟩ :
      UndoCommand Nat)], UndoInverts c := by
    intro c hc
    simp only [List.mem_singleton] at hc
    subst hc
    intro s t ht
    simp only [Option.some.injEq] at ht
    show t - 1 = s
    omega
  have h := undoGroup_rollback_atomicity
    [⟨1, fun s => some (s + 1), fun s => s - 1⟩]
    ⟨2, fun _ => none, fun s => s⟩ [] 0 1 hinv rfl rfl
  simpa [execEntry, undoEntry] using h

/-- Successful run of the group loop. -/
theorem performExecuteGo_success {σ : Type} :
    ∀ (cs done : List (UndoCommand σ)) (s s1 : σ),
      execAll cs s = some s1 →
      performExecuteGo cs s done (done.map execEntry) =
        ⟨true, decide (0 < done.length + cs.length), s1,
         (done.reverse ++ cs).map execEntry, true⟩ := by
  intro cs
  induction cs with
  | nil =>
    intro done s s1 h
    simp only [execAll, Option.some.injEq] at h
    subst h
    simp [performExecuteGo, List.map_reverse]
  | cons c cs2 ih =>
    intro done s s1 h
    cases hc : c.execute s with
    | none => simp [execAll, hc] at h
    | some s2 =>
      simp only [execAll, hc] at h
      have hrec := ih (c :: done) s2 s1 h
      have hstep :
          performExecuteGo (c :: cs2) s done (done.map execEntry) =
          performExecuteGo cs2 s2 (c :: done) ((c :: done).map execEntry) := by
        simp [performExecuteGo, hc, execEntry]
      rw [hstep, hrec]
      have hlen : (c :: done).length + cs2.length =
          done.length + (c :: cs2).length := by
        simp
        omega
      rw [hlen]
      simp [List.reverse_cons, List.append_assoc]

/-- C8: when every child completes, `performExecute` dismisses the rollback
guard and returns the effect flag `childCount > 0` — true exactly when at
least one child command was executed. -/
theorem undoGroup_success_effect {σ : Type} (cs : List (UndoCommand σ))
    (s0 s1 : σ) (hexec : execAll cs s0 = some s1) :
    performExecute cs s0 =
      ⟨true, decide (0 < cs.length), s1, cs.map execEntry, true⟩ ∧
    (decide (0 < cs.length) = true ↔ cs ≠ []) := by
  constructor
  · have h := performExecuteGo_success cs [] s0 s1 hexec
    simpa [performExecute] using h
  · simp [List.length_pos]

/-- Witness for C8: a singleton group over `Nat` runs to completion with
effect flag true. -/
theorem undoGroup_success_effect_witness :
    performExecute
      [(⟨5, fun s => some (s + 2), fun s => s - 2⟩ : UndoCommand Nat)] 0 =
      ⟨true, true, 2, [(5, UndoAct.exec)], true⟩ := by
  have h := (undoGroup_success_effect
    [(⟨5, fun s => some (s + 2), fun s => s - 2⟩ : UndoCommand Nat)] 0 2 rfl).1
  simpa [execEntry] using h

end LibrePCB
